import Mathlib

/-!
# Teanga corpus core — a shallow embedding

A verification model of the Teanga annotated-corpus core (schema store,
layer engine, identity generator, document store, query engine,
aggregation engine, codec layer).  The repository ships only the Python
test suites of the core; the core itself is modelled from the
specification, constrained at every point by the concrete behaviour the
test suites pin down (document identifiers, serialized text, view
values, frequency tables).
-/

set_option maxRecDepth 100000

namespace Teanga

/-! ## Byte-level primitives: UTF-8, SHA-256, Base64 -/

/-- 2^32, the modulus for 32-bit words. -/
def M32 : Nat := 4294967296

/-- Right rotation of a 32-bit word. -/
def rotr32 (n x : Nat) : Nat := ((x >>> n) ||| (x <<< (32 - n))) % M32

/-- Bitwise complement of a 32-bit word. -/
def not32 (x : Nat) : Nat := x ^^^ (M32 - 1)

/-- SHA-256 message-schedule sigma-0. -/
def ssig0 (x : Nat) : Nat := (rotr32 7 x) ^^^ (rotr32 18 x) ^^^ (x >>> 3)

/-- SHA-256 message-schedule sigma-1. -/
def ssig1 (x : Nat) : Nat := (rotr32 17 x) ^^^ (rotr32 19 x) ^^^ (x >>> 10)

/-- SHA-256 compression Sigma-0. -/
def bsig0 (x : Nat) : Nat := (rotr32 2 x) ^^^ (rotr32 13 x) ^^^ (rotr32 22 x)

/-- SHA-256 compression Sigma-1. -/
def bsig1 (x : Nat) : Nat := (rotr32 6 x) ^^^ (rotr32 11 x) ^^^ (rotr32 25 x)

/-- SHA-256 choice function. -/
def chFn (x y z : Nat) : Nat := (x &&& y) ^^^ ((not32 x) &&& z)

/-- SHA-256 majority function. -/
def majFn (x y z : Nat) : Nat := (x &&& y) ^^^ (x &&& z) ^^^ (y &&& z)

/-- The 64 SHA-256 round constants. -/
def sha256K : List Nat :=
  [1116352408, 1899447441, 3049323471, 3921009573, 961987163, 1508970993,
   2453635748, 2870763221, 3624381080, 310598401, 607225278, 1426881987,
   1925078388, 2162078206, 2614888103, 3248222580, 3835390401, 4022224774,
   264347078, 604807628, 770255983, 1249150122, 1555081692, 1996064986,
   2554220882, 2821834349, 2952996808, 3210313671, 3336571891, 3584528711,
   113926993, 338241895, 666307205, 773529912, 1294757372, 1396182291,
   1695183700, 1986661051, 2177026350, 2456956037, 2730485921, 2820302411,
   3259730800, 3345764771, 3516065817, 3600352804, 4094571909, 275423344,
   430227734, 506948616, 659060556, 883997877, 958139571, 1322822218,
   1537002063, 1747873779, 1955562222, 2024104815, 2227730452, 2361852424,
   2428436474, 2756734187, 3204031479, 3329325298]

/-- The SHA-256 initial hash state. -/
def sha256H0 : List Nat :=
  [1779033703, 3144134277, 1013904242, 2773480762,
   1359893119, 2600822924, 528734635, 1541459225]

/-- Extend a 16-word block (given most-recent first) by `n` schedule words,
returning the full schedule oldest first. -/
def extendSchedule : Nat → List Nat → List Nat
  | 0, acc => acc.reverse
  | n + 1, acc =>
      let w := (ssig1 (acc.getD 1 0) + acc.getD 6 0 +
                ssig0 (acc.getD 14 0) + acc.getD 15 0) % M32
      extendSchedule n (w :: acc)

/-- One SHA-256 round on the eight-word working state. -/
def sha256Round (st : List Nat) (kw : Nat × Nat) : List Nat :=
  let a := st.getD 0 0
  let b := st.getD 1 0
  let c := st.getD 2 0
  let d := st.getD 3 0
  let e := st.getD 4 0
  let f := st.getD 5 0
  let g := st.getD 6 0
  let h := st.getD 7 0
  let t1 := (h + bsig1 e + chFn e f g + kw.1 + kw.2) % M32
  let t2 := (bsig0 a + majFn a b c) % M32
  [(t1 + t2) % M32, a, b, c, (d + t1) % M32, e, f, g]

/-- Compress one 16-word block into the running hash state. -/
def sha256Compress (H : List Nat) (block : List Nat) : List Nat :=
  let sched := extendSchedule 48 block.reverse
  let st := (sha256K.zip sched).foldl sha256Round H
  (H.zip st).map (fun p => (p.1 + p.2) % M32)

/-- Fold SHA-256 compression over a padded word stream, 16 words at a time
(`fuel` bounds the number of blocks; structural recursion keeps the
definition kernel-reducible). -/
def sha256Blocks : Nat → List Nat → List Nat → List Nat
  | 0, H, _ => H
  | _, H, [] => H
  | fuel + 1, H, w :: rest =>
      sha256Blocks fuel (sha256Compress H (w :: rest.take 15)) (rest.drop 15)

/-- Big-endian bytes of a value, `k` bytes wide. -/
def beBytes (k n : Nat) : List Nat :=
  (List.range k).map (fun i => (n >>> (8 * (k - 1 - i))) &&& 255)

/-- Pack bytes into 32-bit big-endian words (length a multiple of 4). -/
def packWords : List Nat → List Nat
  | a :: b :: c :: d :: rest => (((a * 256 + b) * 256 + c) * 256 + d) :: packWords rest
  | _ => []

/-- SHA-256 padding: append 0x80, zero fill, and the 64-bit bit length. -/
def sha256Pad (msg : List Nat) : List Nat :=
  let len := msg.length
  let zeros := (119 - len % 64) % 64
  msg ++ [0x80] ++ List.replicate zeros 0 ++ beBytes 8 (8 * len)

/-- SHA-256 of a byte list, as its 32 digest bytes. -/
def sha256 (msg : List Nat) : List Nat :=
  let ws := packWords (sha256Pad msg)
  (sha256Blocks ws.length sha256H0 ws).flatMap (beBytes 4)

/-- The URL-safe Base64 alphabet. -/
def b64Alphabet : List Char :=
  "ABCDEFGHIJKLMNOPQRSTUVWXYZabcdefghijklmnopqrstuvwxyz0123456789-_".toList

/-- One Base64 digit. -/
def b64Digit (n : Nat) : Char := b64Alphabet.getD n 'A'

/-- Base64 encoding of a byte list (with `=` padding). -/
def base64Encode : List Nat → List Char
  | a :: b :: c :: rest =>
      b64Digit (a >>> 2) :: b64Digit (((a &&& 3) <<< 4) ||| (b >>> 4)) ::
      b64Digit (((b &&& 15) <<< 2) ||| (c >>> 6)) :: b64Digit (c &&& 63) ::
      base64Encode rest
  | [a, b] =>
      [b64Digit (a >>> 2), b64Digit (((a &&& 3) <<< 4) ||| (b >>> 4)),
       b64Digit ((b &&& 15) <<< 2), '=']
  | [a] =>
      [b64Digit (a >>> 2), b64Digit ((a &&& 3) <<< 4), '=', '=']
  | [] => []

/-- UTF-8 encoding of one character. -/
def utf8Char (c : Char) : List Nat :=
  let n := c.toNat
  if n < 0x80 then [n]
  else if n < 0x800 then
    [0xC0 ||| (n >>> 6), 0x80 ||| (n &&& 0x3F)]
  else if n < 0x10000 then
    [0xE0 ||| (n >>> 12), 0x80 ||| ((n >>> 6) &&& 0x3F), 0x80 ||| (n &&& 0x3F)]
  else
    [0xF0 ||| (n >>> 18), 0x80 ||| ((n >>> 12) &&& 0x3F),
     0x80 ||| ((n >>> 6) &&& 0x3F), 0x80 ||| (n &&& 0x3F)]

/-- UTF-8 encoding of a string. -/
def utf8 (s : String) : List Nat := s.toList.flatMap utf8Char

/-! ## Data model

Modelled from the spec: the core Rust implementation (schema store,
document store, layer engine) is not in the repository; the data model
follows §3 of the specification.  The auxiliary `LayerDesc` fields
`link_types`, `target`, `default` and `meta` are not exercised by any
test or claim and are omitted. -/

/-- The kind of an annotation layer. -/
inductive LayerType
  | characters
  | span
  | seq
  | element
  | div
  deriving DecidableEq

/-- A value-type constraint on a layer: an open string type or an
enumerated closed set of permitted string values. -/
inductive DataDesc
  | string
  | enum (vals : List String)
  deriving DecidableEq

/-- Declaration of one named layer within a corpus. -/
structure LayerDesc where
  layer_type : LayerType
  base : Option String := none
  data : Option DataDesc := none
  deriving DecidableEq

/-- The data a document holds for one layer. -/
inductive LayerData
  | characters (text : String)
  | span (spans : List (Nat × Nat))
  | seq (vals : List String)
  | element (items : List (Nat × String))
  deriving DecidableEq

/-- A document: an insertion-ordered association of layer names to layer
data. -/
abbrev Document := List (String × LayerData)

/-- A corpus: the schema (insertion-ordered layer declarations) plus the
insertion-ordered mapping of document ID to document. -/
structure Corpus where
  meta : List (String × LayerDesc)
  docs : List (String × Document)
  deriving DecidableEq

/-- Association-list lookup by layer/document name. -/
def alookup {α : Type} (name : String) : List (String × α) → Option α
  | [] => none
  | p :: rest => if p.1 = name then some p.2 else alookup name rest

/-- Error kinds of the core (spec §7). -/
inductive TeangaError
  | schemaError (msg : String)
  | validationError (msg : String)
  | notFoundError (msg : String)
  | queryError (msg : String)
  | codecError (msg : String)
  deriving DecidableEq

instance {ε α : Type} [DecidableEq ε] [DecidableEq α] :
    DecidableEq (Except ε α) := fun x y =>
  match x, y with
  | .ok a, .ok b =>
      if h : a = b then isTrue (by rw [h])
      else isFalse (by intro hh; cases hh; exact h rfl)
  | .error a, .error b =>
      if h : a = b then isTrue (by rw [h])
      else isFalse (by intro hh; cases hh; exact h rfl)
  | .ok _, .error _ => isFalse (by intro hh; cases hh)
  | .error _, .ok _ => isFalse (by intro hh; cases hh)

/-! ## Identity generator

Modelled from the spec: `compute_id` canonicalizes document content
order-independently, hashes it and encodes a fixed-width prefix of the
hash.  The repository's tests force the canonical content to consist of
the `characters` layers only: `test_update_docs` asserts that document
IDs are unchanged after setting a `span` layer, and the basic corpus
keeps IDs `Kjco`/`9wpe` after `words` and `pos` are added.  The exact
scheme (layer names sorted, each `characters` layer contributing
`name NUL text NUL` to a SHA-256 digest, Base64, 4-character prefix) is
fixed by the concrete IDs the tests assert (`Kjco`, `9wpe`, `JHEz`,
`wiDv`). -/

/-- The `(name, text)` contribution of one layer to the canonical
content: `characters` layers only. -/
def charPair (p : String × LayerData) : Option (String × String) :=
  match p.2 with
  | LayerData.characters t => some (p.1, t)
  | _ => none

/-- The `(name, text)` pairs of a document's `characters` layers. -/
def charLayers : Document → List (String × String)
  | [] => []
  | p :: rest =>
      match charPair p with
      | some q => q :: charLayers rest
      | none => charLayers rest

/-- Lexicographic order on character lists by Unicode scalar value (this
coincides with byte order on the UTF-8 encodings). -/
def lexLe : List Char → List Char → Bool
  | [], _ => true
  | _ :: _, [] => false
  | a :: as, b :: bs =>
      if a.toNat < b.toNat then true
      else if b.toNat < a.toNat then false
      else lexLe as bs

/-- Name order on named association-list entries. -/
def nameLe {α : Type} (p q : String × α) : Prop := lexLe p.1.toList q.1.toList = true

instance {α : Type} : DecidableRel (@nameLe α) := fun p q =>
  inferInstanceAs (Decidable (lexLe p.1.toList q.1.toList = true))

/-- Sort a named association list by name. -/
def sortByName {α : Type} (l : List (String × α)) : List (String × α) :=
  List.insertionSort nameLe l

/-- Canonical byte serialization of a document's content: `characters`
layers sorted by name, each contributing `name NUL text NUL`. -/
def idBytes (d : Document) : List Nat :=
  (sortByName (charLayers d)).flatMap
    (fun p => utf8 p.1 ++ [0] ++ utf8 p.2 ++ [0])

/-- The content-addressed document identifier: the first 4 characters of
the Base64 SHA-256 of the canonical content.  (Collision handling is an
open question in the spec and is not modelled.) -/
def teanga_id (d : Document) : String :=
  String.mk ((base64Encode (sha256 (idBytes d))).take 4)

/-! ## Schema store and document store

Modelled from the spec (§4.1, §4.4).  Note on validation: the spec's
`data`-constraint check is deliberately NOT modelled, because the
repository's `test_val_freq` successfully stores the value `"ADV"` in a
`seq` layer declared with the enumerated set `["NOUN","VERB","ADJ"]`;
the tests, being the repository's code, take precedence over the spec's
words here.  Cardinality and offset-bound checks are not exercised by
any claim and are likewise not modelled. -/

/-- The empty corpus. -/
def Corpus.empty : Corpus := ⟨[], []⟩

/-- Declare a layer: fails if the name exists already, or if the `base`
is missing for a non-`characters` layer or is itself undeclared (which
also keeps the base graph acyclic). -/
def Corpus.add_layer_meta (c : Corpus) (name : String) (desc : LayerDesc) :
    Except TeangaError Corpus :=
  if (alookup name c.meta).isSome then .error (.schemaError name)
  else
    match desc.base with
    | none =>
        if desc.layer_type = LayerType.characters then
          .ok ⟨c.meta ++ [(name, desc)], c.docs⟩
        else .error (.schemaError name)
    | some b =>
        if (alookup b c.meta).isSome then
          .ok ⟨c.meta ++ [(name, desc)], c.docs⟩
        else .error (.schemaError name)

/-- Type-conformance of a layer value against the schema. -/
def validateLayer (c : Corpus) (name : String) (v : LayerData) : Bool :=
  match alookup name c.meta with
  | none => false
  | some desc =>
      match desc.layer_type, v with
      | .characters, .characters _ => true
      | .span, .span _ => true
      | .seq, .seq _ => true
      | .element, .element _ => true
      | _, _ => false

/-- Add a document: validate each layer, compute its ID, append in
insertion order.  Returns the assigned ID with the new corpus. -/
def Corpus.add_doc (c : Corpus) (d : Document) :
    Except TeangaError (String × Corpus) :=
  if d.all (fun p => validateLayer c p.1 p.2) then
    let i := teanga_id d
    .ok (i, ⟨c.meta, c.docs ++ [(i, d)]⟩)
  else .error (.validationError "")

/-- Replace (or append) one layer of a document. -/
def setAssoc (d : Document) (name : String) (v : LayerData) : Document :=
  if (alookup name d).isSome then
    d.map (fun p => if p.1 = name then (name, v) else p)
  else d ++ [(name, v)]

/-- `set_layer`: validate the value, update the layer, recompute the ID
and re-key the document in place, preserving its position in iteration
order.  Returns the (possibly new) ID with the new corpus. -/
def Corpus.set_layer (c : Corpus) (docId name : String) (v : LayerData) :
    Except TeangaError (String × Corpus) :=
  match alookup docId c.docs with
  | none => .error (.notFoundError docId)
  | some d =>
      if validateLayer c name v then
        let d' := setAssoc d name v
        let newId := teanga_id d'
        .ok (newId,
             ⟨c.meta, c.docs.map (fun p => if p.1 = docId then (newId, d') else p)⟩)
      else .error (.validationError name)

/-- Document IDs in insertion order. -/
def Corpus.doc_ids (c : Corpus) : List String := c.docs.map Prod.fst

/-- Total wrapper: apply `add_layer_meta`, keeping the corpus on error. -/
def addLayerMetaD (c : Corpus) (name : String) (desc : LayerDesc) : Corpus :=
  (c.add_layer_meta name desc).toOption.getD c

/-- Total wrapper: apply `add_doc`, keeping the corpus on error. -/
def addDocD (c : Corpus) (d : Document) : Corpus :=
  match c.add_doc d with
  | .ok (_, c') => c'
  | .error _ => c

/-- Total wrapper: apply `set_layer`, keeping the corpus on error. -/
def setLayerD (c : Corpus) (docId name : String) (v : LayerData) : Corpus :=
  match c.set_layer docId name v with
  | .ok (_, c') => c'
  | .error _ => c

/-- The fixed basic corpus of the test suite (`create_basic_corpus`):
schema `text`/`words`/`pos`, two documents with words and POS tags. -/
def create_basic_corpus : Corpus :=
  let c := Corpus.empty
  let c := addLayerMetaD c "text" ⟨.characters, none, none⟩
  let c := addLayerMetaD c "words" ⟨.span, some "text", none⟩
  let c := addLayerMetaD c "pos" ⟨.seq, some "words", some .string⟩
  let c := addDocD c [("text", .characters "This is a document.")]
  let c := setLayerD c "Kjco" "words"
    (.span [(0, 4), (5, 7), (8, 9), (10, 18), (18, 19)])
  let c := setLayerD c "Kjco" "pos" (.seq ["DT", "VBZ", "DT", "NN", "."])
  let c := addDocD c
    [("text", .characters "Colorless green ideas sleep furiously.")]
  let c := setLayerD c "9wpe" "words"
    (.span [(0, 8), (9, 16), (17, 22), (23, 30), (31, 40)])
  setLayerD c "9wpe" "pos" (.seq ["JJ", "JJ", "NNS", "VBZ", "RB"])

/-! ## Layer engine

Modelled from the spec (§4.2): index projection walks the `base` chain;
a layer's `.text` and `.indexes` views are derived from it, never
stored.  The concrete view values are pinned by `test_char_layers`,
`test_seq_layers`, `test_span_layer` and `test_elem_layer`. -/

/-- The number of elements a layer value holds. -/
def layerCount : LayerData → Nat
  | .characters t => t.length
  | .span ss => ss.length
  | .seq vs => vs.length
  | .element es => es.length

/-- The half-open range each element of a layer value covers in its base
layer's element space (for a `characters` value: its own per-character
identity spans). -/
def elemRanges : LayerData → List (Nat × Nat)
  | .characters t => (List.range t.length).map (fun i => (i, i + 1))
  | .span ss => ss
  | .seq vs => (List.range vs.length).map (fun i => (i, i + 1))
  | .element es => es.map (fun p => (p.1, p.1 + 1))

/-- Project one half-open range through a list of per-element ranges:
the range starts where its first element starts and ends where its last
element ends. -/
def projectRangeVia (rs : List (Nat × Nat)) (r : Nat × Nat) : Nat × Nat :=
  ((rs.getD r.1 (0, 0)).1, (rs.getD (r.2 - 1) (0, 0)).2)

/-- Project one half-open range from the element space of layer `ln`
down the base chain into the element space of layer `tn`.  `fuel`
bounds the chain depth. -/
def projDown (c : Corpus) (d : Document) :
    Nat → String → String → (Nat × Nat) → (Nat × Nat)
  | 0, _, _, r => r
  | fuel + 1, ln, tn, r =>
      if ln = tn then r
      else
        match alookup ln c.meta, alookup ln d with
        | some desc, some v =>
            match desc.base with
            | some bn =>
                projDown c d fuel bn tn (projectRangeVia (elemRanges v) r)
            | none => r
        | _, _ => r

/-- The `.indexes(tn)` view of layer `ln`: for each element, its
half-open range in `tn`'s element space.  A layer's view of itself is
the identity spans. -/
def indexes (c : Corpus) (d : Document) (ln tn : String) : List (Nat × Nat) :=
  if ln = tn then
    match alookup ln d with
    | some v => (List.range (layerCount v)).map (fun i => (i, i + 1))
    | none => []
  else
    match alookup ln c.meta, alookup ln d with
    | some desc, some v =>
        match desc.base with
        | some bn => (elemRanges v).map (projDown c d c.meta.length bn tn)
        | none => []
    | _, _ => []

/-- The root of a layer's base chain. -/
def rootOf (c : Corpus) : Nat → String → String
  | 0, ln => ln
  | fuel + 1, ln =>
      match alookup ln c.meta with
      | some desc =>
          match desc.base with
          | some bn => rootOf c fuel bn
          | none => ln
      | none => ln

/-- The substring of `t` under a half-open character range. -/
def substrRange (t : String) (r : Nat × Nat) : String :=
  String.mk ((t.toList.drop r.1).take (r.2 - r.1))

/-- The `.text` view of a layer: the surface text of each of its
elements, obtained by projecting down to the root `characters` layer;
a `characters` layer's own `.text` view is the whole string. -/
def textView (c : Corpus) (d : Document) (ln : String) : List String :=
  match alookup ln d with
  | some (.characters t) => [t]
  | some _ =>
      match alookup (rootOf c c.meta.length ln) d with
      | some (.characters t) => (indexes c d ln (rootOf c c.meta.length ln)).map (substrRange t)
      | _ => []
  | none => []

/-- The `.data` view of a layer: per-element stored values (`none` for
layers that store no values). -/
def dataView : LayerData → List (Option String)
  | .characters t => List.replicate t.length none
  | .span ss => List.replicate ss.length none
  | .seq vs => vs.map some
  | .element es => es.map (fun p => some p.2)

/-! ## Query engine

Modelled from the spec (§4.5).  A per-layer condition is a literal, a
sequence of literals, or an explicit membership operator; the two list
forms are kept apart to mirror the API surface.  `$regex` is not needed
by any claim and is not modelled.  A document matches a condition when
some candidate value of the named layer does; candidates are the stored
string values plus, for span/seq/element layers, the projected surface
texts. -/

/-- A per-layer query condition. -/
inductive Cond
  | lit (v : String)
  | listOf (vs : List String)
  | inOp (vs : List String)
  deriving DecidableEq

/-- The stored string values of a layer value. -/
def storedVals : LayerData → List String
  | .characters t => [t]
  | .span _ => []
  | .seq vs => vs
  | .element es => es.map Prod.snd

/-- All values of a document's layer a query condition is tested
against: stored values plus projected surface texts. -/
def candidateVals (c : Corpus) (d : Document) (ln : String) : List String :=
  match alookup ln d with
  | none => []
  | some (.characters t) => [t]
  | some v => storedVals v ++ textView c d ln

/-- Whether one candidate value satisfies a condition. -/
def condMatches (cond : Cond) (s : String) : Bool :=
  match cond with
  | .lit v => s = v
  | .listOf vs => vs.contains s
  | .inOp vs => vs.contains s

/-- Whether a document satisfies one named condition. -/
def docMatchesCond (c : Corpus) (d : Document) (p : String × Cond) : Bool :=
  (candidateVals c d p.1).any (condMatches p.2)

/-- A query: an implicit mapping of field conditions, or an explicit
`$and` of the same. -/
inductive Query
  | fields (conds : List (String × Cond))
  | andQ (conds : List (String × Cond))

/-- Query evaluation on one document: every condition must match. -/
def evalQuery (c : Corpus) (d : Document) : Query → Bool
  | .fields cs => cs.all (docMatchesCond c d)
  | .andQ cs => cs.all (docMatchesCond c d)

/-- `search`: the IDs of the matching documents, in corpus iteration
order. -/
def Corpus.search (c : Corpus) (q : Query) : List String :=
  (c.docs.filter (fun p => evalQuery c p.2 q)).map Prod.fst

/-! ## Aggregation engine

Modelled from the spec (§4.6): frequency tables over surface texts
(`text_freq`) or stored values (`val_freq`), with optional filtering.
Tables are association lists in first-occurrence order; equality of
Python `Counter`s is equality of per-key counts. -/

/-- Increment the count of `s` in a frequency table. -/
def bump (s : String) : List (String × Nat) → List (String × Nat)
  | [] => [(s, 1)]
  | p :: rest => if p.1 = s then (p.1, p.2 + 1) :: rest else p :: bump s rest

/-- Count all occurrences in a list of strings. -/
def countAll (l : List String) : List (String × Nat) :=
  l.foldl (fun acc s => bump s acc) []

/-- The count a frequency table assigns to `s` (0 when absent). -/
def countOf (tbl : List (String × Nat)) (s : String) : Nat :=
  (alookup s tbl).getD 0

/-- The number of occurrences of `s` in a list of strings. -/
def countStr (l : List String) (s : String) : Nat :=
  (l.filter (fun x => x = s)).length

/-- All surface strings the named layer produces across the corpus. -/
def surfaceStrings (c : Corpus) (ln : String) : List String :=
  c.docs.flatMap (fun p => textView c p.2 ln)

/-- All stored values the named layer holds across the corpus. -/
def storedStrings (c : Corpus) (ln : String) : List String :=
  c.docs.flatMap (fun p =>
    match alookup ln p.2 with
    | some v => storedVals v
    | none => [])

/-- `text_freq(layer, predicate)`: occurrence counts of each distinct
surface string of the layer, restricted to strings satisfying the
predicate. -/
def Corpus.text_freq (c : Corpus) (ln : String) (pred : String → Bool) :
    List (String × Nat) :=
  countAll ((surfaceStrings c ln).filter pred)

/-- The second argument of `val_freq`: nothing, a literal value set, or
a predicate. -/
inductive ValFilter
  | all
  | within (vs : List String)
  | pred (p : String → Bool)

/-- The filtering function a `ValFilter` denotes. -/
def ValFilter.keep : ValFilter → String → Bool
  | .all, _ => true
  | .within vs, s => vs.contains s
  | .pred p, s => p s

/-- `val_freq(layer, subset_or_predicate)`: occurrence counts of each
distinct stored value of the layer, filtered. -/
def Corpus.val_freq (c : Corpus) (ln : String) (f : ValFilter) :
    List (String × Nat) :=
  countAll ((storedStrings c ln).filter f.keep)

/-! ## Codec layer: shared printers

Modelled from the spec (§4.7), with the exact textual layout pinned by
`test_to_yaml_str`, `test_to_json_str` and the `YAML_BASIC_CORPUS`
literal: `_meta` first, 4-space nested indentation, layer keys sorted
by name, lists as flow sequences.  The model printer performs no string
escaping; the round-trip theorems carry plainness hypotheses instead. -/

/-- The opening brace character. -/
def lbrace : Char := Char.ofNat 123

/-- The closing brace character. -/
def rbrace : Char := Char.ofNat 125

/-- The decimal digit character for `n < 10`. -/
def digitChar (n : Nat) : Char := Char.ofNat (48 + n)

/-- Decimal digits of `n`, most significant first (`fuel` bounds the
digit count). -/
def natChars : Nat → Nat → List Char
  | 0, _ => []
  | fuel + 1, n => if n < 10 then [digitChar n] else natChars fuel (n / 10) ++ [digitChar (n % 10)]

/-- Decimal representation of a natural number. -/
def printNatC (n : Nat) : List Char := natChars (n + 1) n

/-- Comma-join chunks of characters. -/
def joinComma : List (List Char) → List Char
  | [] => []
  | [x] => x
  | x :: y :: rest => x ++ ',' :: joinComma (y :: rest)

/-- A double-quoted string (no escaping; plainness is hypothesised). -/
def quoteStr (s : String) : List Char := '"' :: s.toList ++ ['"']

/-- A `[start,end]` offset pair. -/
def printPair (r : Nat × Nat) : List Char :=
  '[' :: (printNatC r.1 ++ ',' :: printNatC r.2) ++ [']']

/-- A flow sequence of offset pairs. -/
def printSpanList (ss : List (Nat × Nat)) : List Char :=
  '[' :: joinComma (ss.map printPair) ++ [']']

/-- A flow sequence of quoted strings. -/
def printStrList (vs : List String) : List Char :=
  '[' :: joinComma (vs.map quoteStr) ++ [']']

/-- A `[index,"value"]` element entry. -/
def printElem (p : Nat × String) : List Char :=
  '[' :: (printNatC p.1 ++ ',' :: quoteStr p.2) ++ [']']

/-- A flow sequence of element entries. -/
def printElemList (es : List (Nat × String)) : List Char :=
  '[' :: joinComma (es.map printElem) ++ [']']

/-- The serialized name of a layer type. -/
def LayerType.tname : LayerType → String
  | .characters => "characters"
  | .span => "span"
  | .seq => "seq"
  | .element => "element"
  | .div => "div"

/-- The serialized form of a `data` constraint. -/
def dataRepr : DataDesc → List Char
  | .string => "string".toList
  | .enum vs => printStrList vs

/-! ## YAML codec: printer -/

/-- Four spaces. -/
def ind4 : List Char := [' ', ' ', ' ', ' ']

/-- Eight spaces. -/
def ind8 : List Char := ind4 ++ ind4

/-- Join lines, each terminated by a newline. -/
def unlines (ls : List (List Char)) : List Char :=
  ls.flatMap (fun l => l ++ ['\n'])

/-- The YAML lines of one layer declaration. -/
def yamlMetaEntry (p : String × LayerDesc) : List (List Char) :=
  (ind4 ++ p.1.toList ++ [':']) ::
  (ind8 ++ "type: ".toList ++ p.2.layer_type.tname.toList) ::
  ((match p.2.base with
    | some b => [ind8 ++ "base: ".toList ++ b.toList]
    | none => []) ++
   (match p.2.data with
    | some dd => [ind8 ++ "data: ".toList ++ dataRepr dd]
    | none => []))

/-- The YAML form of one layer value. -/
def yamlValue : LayerData → List Char
  | .characters t => t.toList
  | .span ss => printSpanList ss
  | .seq vs => printStrList vs
  | .element es => printElemList es

/-- The YAML lines of one document block. -/
def yamlDocEntry (p : String × Document) : List (List Char) :=
  (p.1.toList ++ [':']) ::
  (sortByName p.2).map (fun q => ind4 ++ q.1.toList ++ ':' :: ' ' :: yamlValue q.2)

/-- YAML serialization: `_meta` block first (layer keys sorted), then
one block per document in insertion order (layer keys sorted). -/
def Corpus.to_yaml_str (c : Corpus) : String :=
  String.mk (unlines ("_meta:".toList ::
    (sortByName c.meta).flatMap yamlMetaEntry ++ c.docs.flatMap yamlDocEntry))

/-! ## JSON codec: printer -/

/-- The JSON object for one layer declaration. -/
def jsonLayerDesc (desc : LayerDesc) : List Char :=
  lbrace ::
  joinComma ((quoteStr "type" ++ ':' :: quoteStr desc.layer_type.tname) ::
    ((match desc.base with
      | some b => [quoteStr "base" ++ ':' :: quoteStr b]
      | none => []) ++
     (match desc.data with
      | some .string => [quoteStr "data" ++ ':' :: quoteStr "string"]
      | some (.enum vs) => [quoteStr "data" ++ ':' :: printStrList vs]
      | none => []))) ++ [rbrace]

/-- The JSON form of one layer value. -/
def jsonValue : LayerData → List Char
  | .characters t => quoteStr t
  | .span ss => printSpanList ss
  | .seq vs => printStrList vs
  | .element es => printElemList es

/-- The JSON object for one document. -/
def jsonDoc (d : Document) : List Char :=
  lbrace ::
  joinComma ((sortByName d).map (fun q => quoteStr q.1 ++ ':' :: jsonValue q.2)) ++ [rbrace]

/-- Compact JSON serialization: a `_meta` object (layer keys sorted)
followed by one member per document in insertion order. -/
def Corpus.to_json_str (c : Corpus) : String :=
  String.mk (lbrace ::
    joinComma ((quoteStr "_meta" ++ ':' ::
        (lbrace ::
         joinComma ((sortByName c.meta).map
           (fun p => quoteStr p.1 ++ ':' :: jsonLayerDesc p.2)) ++ [rbrace])) ::
      c.docs.map (fun p => quoteStr p.1 ++ ':' :: jsonDoc p.2)) ++ [rbrace])

/-! ## Codec layer: shared parsers

The parsers invert the model printers (spec §4.7 requires lossless
round-trips); they are written with explicit structural recursion (fuel
where the grammar is iterated) so that they reduce in the kernel. -/

/-- Whether a character is a decimal digit. -/
def isDigitC (c : Char) : Bool := 48 ≤ c.toNat && c.toNat ≤ 57

/-- Split off the longest digit run. -/
def takeDigits : List Char → List Char × List Char
  | [] => ([], [])
  | c :: rest =>
      if isDigitC c then
        let p := takeDigits rest
        (c :: p.1, p.2)
      else ([], c :: rest)

/-- The value of a digit run, most significant first. -/
def digitsToNat (ds : List Char) : Nat :=
  ds.foldl (fun a c => a * 10 + (c.toNat - 48)) 0

/-- Parse a decimal natural number. -/
def parseNat (l : List Char) : Option (Nat × List Char) :=
  let p := takeDigits l
  if p.1.isEmpty then none else some (digitsToNat p.1, p.2)

/-- Consume one expected character. -/
def expectChar (c : Char) : List Char → Option (List Char)
  | x :: rest => if x = c then some rest else none
  | [] => none

/-- Split at the closing double quote. -/
def breakAtQuote : List Char → Option (List Char × List Char)
  | [] => none
  | c :: rest =>
      if c = '"' then some ([], rest)
      else
        match breakAtQuote rest with
        | some p => some (c :: p.1, p.2)
        | none => none

/-- Parse a double-quoted string. -/
def parseQuoted : List Char → Option (String × List Char)
  | c :: rest =>
      if c = '"' then (breakAtQuote rest).map (fun p => (String.mk p.1, p.2))
      else none
  | [] => none

/-- Parse one or more items separated by commas (`fuel` bounds the item
count). -/
def parseSepBy {α : Type} (item : List Char → Option (α × List Char)) :
    Nat → List Char → Option (List α × List Char)
  | 0, _ => none
  | fuel + 1, l =>
      match item l with
      | none => none
      | some (a, rest) =>
          match rest with
          | c :: rest' =>
              if c = ',' then
                match parseSepBy item fuel rest' with
                | some p => some (a :: p.1, p.2)
                | none => none
              else some (a :: [], c :: rest')
          | [] => some (a :: [], [])

/-- Parse a flow sequence `[item,item,...]` (possibly empty). -/
def parseFlowList {α : Type} (item : List Char → Option (α × List Char))
    (l : List Char) : Option (List α × List Char) :=
  match l with
  | c :: rest =>
      if c = '[' then
        match rest with
        | c2 :: rest2 =>
            if c2 = ']' then some ([], rest2)
            else
              match parseSepBy item (rest.length + 1) rest with
              | some p =>
                  match p.2 with
                  | c3 :: r3 => if c3 = ']' then some (p.1, r3) else none
                  | [] => none
              | none => none
        | [] => none
      else none
  | [] => none

/-- Parse a `[start,end]` offset pair. -/
def parsePair (l : List Char) : Option ((Nat × Nat) × List Char) := do
  let r1 ← expectChar '[' l
  let (a, r2) ← parseNat r1
  let r3 ← expectChar ',' r2
  let (b, r4) ← parseNat r3
  let r5 ← expectChar ']' r4
  pure ((a, b), r5)

/-- Parse a `[index,"value"]` element entry. -/
def parseElem (l : List Char) : Option ((Nat × String) × List Char) := do
  let r1 ← expectChar '[' l
  let (a, r2) ← parseNat r1
  let r3 ← expectChar ',' r2
  let (s, r4) ← parseQuoted r3
  let r5 ← expectChar ']' r4
  pure ((a, s), r5)

/-- Parse a serialized layer-type name. -/
def parseLayerType (l : List Char) : Option LayerType :=
  if l = "characters".toList then some .characters
  else if l = "span".toList then some .span
  else if l = "seq".toList then some .seq
  else if l = "element".toList then some .element
  else if l = "div".toList then some .div
  else none

/-- Parse a serialized `data` constraint (consuming all input). -/
def parseDataDesc (l : List Char) : Option DataDesc :=
  if l = "string".toList then some .string
  else
    match parseFlowList parseQuoted l with
    | some (vs, []) => some (.enum vs)
    | _ => none

/-- Parse a whole-line layer value of the given type. -/
def parseValue (lt : LayerType) (l : List Char) : Option LayerData :=
  match lt with
  | .characters => some (.characters (String.mk l))
  | .span =>
      match parseFlowList parsePair l with
      | some (ss, []) => some (.span ss)
      | _ => none
  | .seq =>
      match parseFlowList parseQuoted l with
      | some (vs, []) => some (.seq vs)
      | _ => none
  | .element =>
      match parseFlowList parseElem l with
      | some (es, []) => some (.element es)
      | _ => none
  | .div => none

/-! ## YAML codec: parser -/

/-- Split a character stream into newline-terminated lines. -/
def splitLinesAux : List Char → List Char → List (List Char)
  | [], [] => []
  | [], acc => [acc.reverse]
  | c :: rest, acc =>
      if c = '\n' then acc.reverse :: splitLinesAux rest []
      else splitLinesAux rest (c :: acc)

/-- The lines of a character stream. -/
def splitLines (l : List Char) : List (List Char) := splitLinesAux l []

/-- Split a line at its first colon. -/
def splitAtColon : List Char → Option (List Char × List Char)
  | [] => none
  | c :: rest =>
      if c = ':' then some ([], rest)
      else
        match splitAtColon rest with
        | some p => some (c :: p.1, p.2)
        | none => none

/-- Consume exactly `n` leading spaces. -/
def dropIndent : Nat → List Char → Option (List Char)
  | 0, l => some l
  | n + 1, l =>
      match l with
      | c :: rest => if c = ' ' then dropIndent n rest else none
      | [] => none

/-- A non-indented, non-empty name: header lines key on it. -/
def headName : List Char → Option (List Char)
  | [] => none
  | c :: rest => if c = ' ' then none else some (c :: rest)

/-- Parse a `_meta` entry header line `    name:`. -/
def parseEntryHeader (l : List Char) : Option String := do
  let l1 ← dropIndent 4 l
  let l2 ← headName l1
  match splitAtColon l2 with
  | some (nm, []) => pure (String.mk nm)
  | _ => none

/-- Parse an 8-indented attribute line `        key: value`, returning
the value. -/
def parseAttrLine (key : String) (l : List Char) : Option (List Char) := do
  let l1 ← dropIndent 8 l
  match splitAtColon l1 with
  | some (k, ' ' :: v) => if k = key.toList then pure v else none
  | _ => none

/-- Consume an optional attribute line. -/
def parseOptAttr (key : String) :
    List (List Char) → Option (List Char) × List (List Char)
  | [] => (none, [])
  | l :: rest =>
      match parseAttrLine key l with
      | some v => (some v, rest)
      | none => (none, l :: rest)

/-- Parse the `_meta` entries, stopping at the first line that is not a
4-indented entry header. -/
def parseMetaEntries :
    Nat → List (List Char) → Option (List (String × LayerDesc) × List (List Char))
  | 0, _ => none
  | _, [] => some ([], [])
  | fuel + 1, l :: rest =>
      match parseEntryHeader l with
      | none => some ([], l :: rest)
      | some nm =>
          match rest with
          | [] => none
          | tl :: rest1 =>
              match parseAttrLine "type" tl with
              | none => none
              | some tv =>
                  match parseLayerType tv with
                  | none => none
                  | some lt =>
                      let pb := parseOptAttr "base" rest1
                      let pd := parseOptAttr "data" pb.2
                      match pd.1 with
                      | some dv =>
                          match parseDataDesc dv with
                          | none => none
                          | some dd =>
                              match parseMetaEntries fuel pd.2 with
                              | some p =>
                                  some ((nm, ⟨lt, pb.1.map String.mk, some dd⟩) :: p.1, p.2)
                              | none => none
                      | none =>
                          match parseMetaEntries fuel pd.2 with
                          | some p =>
                              some ((nm, ⟨lt, pb.1.map String.mk, none⟩) :: p.1, p.2)
                          | none => none

/-- Parse a 4-indented document layer line `    name: value` against the
schema. -/
def parseLayerLine (meta : List (String × LayerDesc)) (l : List Char) :
    Option (String × LayerData) := do
  let l1 ← dropIndent 4 l
  let l2 ← headName l1
  match splitAtColon l2 with
  | some (nm, ' ' :: v) =>
      match alookup (String.mk nm) meta with
      | some desc =>
          match parseValue desc.layer_type v with
          | some lv => pure (String.mk nm, lv)
          | none => none
      | none => none
  | _ => none

/-- Parse the layer lines of one document block. -/
def parseDocLayers (meta : List (String × LayerDesc)) :
    Nat → List (List Char) → Option (Document × List (List Char))
  | 0, _ => none
  | _, [] => some ([], [])
  | fuel + 1, l :: rest =>
      match parseLayerLine meta l with
      | none => some ([], l :: rest)
      | some nv =>
          match parseDocLayers meta fuel rest with
          | some p => some (nv :: p.1, p.2)
          | none => none

/-- Parse a document header line `id:` (not indented). -/
def parseDocHeader (l : List Char) : Option String := do
  let l1 ← headName l
  match splitAtColon l1 with
  | some (i, []) => pure (String.mk i)
  | _ => none

/-- Parse the document blocks (consuming all remaining lines). -/
def parseDocEntries (meta : List (String × LayerDesc)) :
    Nat → List (List Char) → Option (List (String × Document))
  | 0, _ => none
  | _, [] => some []
  | fuel + 1, l :: rest =>
      match parseDocHeader l with
      | none => none
      | some i =>
          match parseDocLayers meta (rest.length + 1) rest with
          | some p =>
              match parseDocEntries meta fuel p.2 with
              | some ds => some ((i, p.1) :: ds)
              | none => none
          | none => none

/-- The sorted-key normal form of a corpus: layer declarations and each
document's layers ordered by name (document order untouched).  The text
codecs emit keys in this order, so deserialization returns corpora in
this form. -/
def sortCorpus (c : Corpus) : Corpus :=
  ⟨sortByName c.meta, c.docs.map (fun p => (p.1, sortByName p.2))⟩

/-- YAML deserialization: `_meta` first, then document blocks. -/
def read_yaml_str (s : String) : Option Corpus :=
  match splitLines s.toList with
  | [] => none
  | hd :: rest =>
      if hd = "_meta:".toList then
        match parseMetaEntries (rest.length + 1) rest with
        | some (ms, rem) =>
            match parseDocEntries ms (rem.length + 1) rem with
            | some ds => some ⟨ms, ds⟩
            | none => none
        | none => none
      else none

/-! ## JSON codec: parser -/

/-- Parse a quoted key followed by a colon. -/
def parseKeyColon (key : String) (l : List Char) : Option (List Char) := do
  let p ← parseQuoted l
  if p.1 = key then expectChar ':' p.2 else none

/-- Parse a JSON layer value of the given type. -/
def parseJsonValue (lt : LayerType) (l : List Char) :
    Option (LayerData × List Char) :=
  match lt with
  | .characters => (parseQuoted l).map (fun p => (.characters p.1, p.2))
  | .span => (parseFlowList parsePair l).map (fun p => (.span p.1, p.2))
  | .seq => (parseFlowList parseQuoted l).map (fun p => (.seq p.1, p.2))
  | .element => (parseFlowList parseElem l).map (fun p => (.element p.1, p.2))
  | .div => none

/-- Parse a JSON `data` constraint. -/
def parseJsonDataDesc (l : List Char) : Option (DataDesc × List Char) :=
  match parseQuoted l with
  | some (s, rest) => if s = "string" then some (.string, rest) else none
  | none => (parseFlowList parseQuoted l).map (fun p => (.enum p.1, p.2))

/-- Parse a JSON layer-declaration object (members in printed order:
`type`, then optional `base`, then optional `data`). -/
def parseJsonLayerDesc (l : List Char) : Option (LayerDesc × List Char) := do
  let r1 ← expectChar lbrace l
  let r2 ← parseKeyColon "type" r1
  let p3 ← parseQuoted r2
  let lt ← parseLayerType p3.1.toList
  match p3.2 with
  | [] => none
  | c :: rest =>
      if c = rbrace then some (⟨lt, none, none⟩, rest)
      else if c = ',' then
        match parseKeyColon "base" rest with
        | some rb => do
            let p4 ← parseQuoted rb
            match p4.2 with
            | [] => none
            | c2 :: rest2 =>
                if c2 = rbrace then some (⟨lt, some p4.1, none⟩, rest2)
                else if c2 = ',' then do
                  let rd ← parseKeyColon "data" rest2
                  let p5 ← parseJsonDataDesc rd
                  let r6 ← expectChar rbrace p5.2
                  pure (⟨lt, some p4.1, some p5.1⟩, r6)
                else none
        | none => do
            let rd ← parseKeyColon "data" rest
            let p5 ← parseJsonDataDesc rd
            let r6 ← expectChar rbrace p5.2
            pure (⟨lt, none, some p5.1⟩, r6)
      else none

/-- Parse one JSON document member `"name":value` against the schema. -/
def parseJsonMember (meta : List (String × LayerDesc)) (l : List Char) :
    Option ((String × LayerData) × List Char) := do
  let p ← parseQuoted l
  let r ← expectChar ':' p.2
  match alookup p.1 meta with
  | some desc => (parseJsonValue desc.layer_type r).map (fun q => ((p.1, q.1), q.2))
  | none => none

/-- Parse a JSON document object. -/
def parseJsonDoc (meta : List (String × LayerDesc)) (l : List Char) :
    Option (Document × List Char) := do
  let r1 ← expectChar lbrace l
  match r1 with
  | [] => none
  | c :: rest =>
      if c = rbrace then some ([], rest)
      else do
        let p ← parseSepBy (parseJsonMember meta) (r1.length + 1) r1
        let r3 ← expectChar rbrace p.2
        pure (p.1, r3)

/-- Parse one `_meta` member `"name":desc`. -/
def parseJsonMetaMember (l : List Char) :
    Option ((String × LayerDesc) × List Char) := do
  let p ← parseQuoted l
  let r ← expectChar ':' p.2
  (parseJsonLayerDesc r).map (fun q => ((p.1, q.1), q.2))

/-- Parse one top-level document member `"id":doc`. -/
def parseJsonDocMember (meta : List (String × LayerDesc)) (l : List Char) :
    Option ((String × Document) × List Char) := do
  let p ← parseQuoted l
  let r ← expectChar ':' p.2
  (parseJsonDoc meta r).map (fun q => ((p.1, q.1), q.2))

/-- JSON deserialization: a `_meta` object followed by document
members; all input must be consumed. -/
def read_json_str (s : String) : Option Corpus := do
  let r1 ← expectChar lbrace s.toList
  let r2 ← parseKeyColon "_meta" r1
  let r3 ← expectChar lbrace r2
  let pm ←
    match r3 with
    | [] => none
    | c :: rest =>
        if c = rbrace then some (([] : List (String × LayerDesc)), rest)
        else do
          let p ← parseSepBy parseJsonMetaMember (r3.length + 1) r3
          let r ← expectChar rbrace p.2
          pure (p.1, r)
  match pm.2 with
  | [] => none
  | c :: rest =>
      if c = rbrace then
        if rest.isEmpty then some ⟨pm.1, []⟩ else none
      else if c = ',' then do
        let p ← parseSepBy (parseJsonDocMember pm.1) (rest.length + 1) rest
        match p.2 with
        | [] => none
        | c2 :: r2 =>
            if c2 = rbrace then
              if r2.isEmpty then some ⟨pm.1, p.1⟩ else none
            else none
      else none

/-! ## Binary (cuac) codec

Modelled from the spec: the binary format's byte layout is an open
question in the spec (§9); only the deterministic lossless round-trip
is required.  The model uses a length-prefixed encoding with varint
integers that preserves the in-memory structure exactly. -/

/-- Little-endian base-128 varint encoding (`fuel` bounds the digit
count). -/
def vEncAux : Nat → Nat → List Nat
  | 0, _ => []
  | fuel + 1, n =>
      if n < 128 then [n] else (128 + n % 128) :: vEncAux fuel (n / 128)

/-- Varint encoding of a natural number. -/
def varEnc (n : Nat) : List Nat := vEncAux (n + 1) n

/-- Varint decoding (fuel-bounded). -/
def vDecAux : Nat → List Nat → Option (Nat × List Nat)
  | 0, _ => none
  | _ + 1, [] => none
  | fuel + 1, b :: rest =>
      if b < 128 then some (b, rest)
      else
        match vDecAux fuel rest with
        | some p => some ((b - 128) + 128 * p.1, p.2)
        | none => none

/-- Varint decoding of a byte stream. -/
def varDec (l : List Nat) : Option (Nat × List Nat) := vDecAux (l.length + 1) l

/-- Binary encoding of a string: character count, then each scalar
value as a varint. -/
def binStr (s : String) : List Nat :=
  varEnc s.toList.length ++ s.toList.flatMap (fun c => varEnc c.toNat)

/-- Binary encoding of a counted list. -/
def binList {α : Type} (f : α → List Nat) (l : List α) : List Nat :=
  varEnc l.length ++ l.flatMap f

/-- Binary encoding of an optional string. -/
def binOptStr : Option String → List Nat
  | none => [0]
  | some s => 1 :: binStr s

/-- Binary encoding of an optional `data` constraint. -/
def binDataDesc : Option DataDesc → List Nat
  | none => [0]
  | some .string => [1]
  | some (.enum vs) => 2 :: binList binStr vs

/-- The tag byte of a layer type. -/
def LayerType.tag : LayerType → Nat
  | .characters => 0
  | .span => 1
  | .seq => 2
  | .element => 3
  | .div => 4

/-- Binary encoding of a layer declaration. -/
def binLayerDesc (desc : LayerDesc) : List Nat :=
  desc.layer_type.tag :: binOptStr desc.base ++ binDataDesc desc.data

/-- Binary encoding of a layer value. -/
def binLayerData : LayerData → List Nat
  | .characters t => 0 :: binStr t
  | .span ss => 1 :: binList (fun r => varEnc r.1 ++ varEnc r.2) ss
  | .seq vs => 2 :: binList binStr vs
  | .element es => 3 :: binList (fun p => varEnc p.1 ++ binStr p.2) es

/-- Binary encoding of a named entry. -/
def binNamed {α : Type} (f : α → List Nat) (p : String × α) : List Nat :=
  binStr p.1 ++ f p.2

/-- Binary corpus encoding: the schema, then the documents, both in
insertion order. -/
def Corpus.to_cuac (c : Corpus) : List Nat :=
  binList (binNamed binLayerDesc) c.meta ++
  binList (binNamed (binList (binNamed binLayerData))) c.docs

/-- Decode exactly `k` items. -/
def decN {α : Type} (item : List Nat → Option (α × List Nat)) :
    Nat → List Nat → Option (List α × List Nat)
  | 0, l => some ([], l)
  | k + 1, l => do
      let p ← item l
      let q ← decN item k p.2
      pure (p.1 :: q.1, q.2)

/-- Decode one character. -/
def decChar (l : List Nat) : Option (Char × List Nat) := do
  let p ← varDec l
  pure (Char.ofNat p.1, p.2)

/-- Decode a string. -/
def decStr (l : List Nat) : Option (String × List Nat) := do
  let p ← varDec l
  let q ← decN decChar p.1 p.2
  pure (String.mk q.1, q.2)

/-- Decode a counted list. -/
def decList {α : Type} (item : List Nat → Option (α × List Nat))
    (l : List Nat) : Option (List α × List Nat) := do
  let p ← varDec l
  decN item p.1 p.2

/-- Decode an optional string. -/
def decOptStr : List Nat → Option (Option String × List Nat)
  | 0 :: rest => some (none, rest)
  | 1 :: rest => (decStr rest).map (fun p => (some p.1, p.2))
  | _ => none

/-- Decode an optional `data` constraint. -/
def decDataDesc : List Nat → Option (Option DataDesc × List Nat)
  | 0 :: rest => some (none, rest)
  | 1 :: rest => some (some .string, rest)
  | 2 :: rest => (decList decStr rest).map (fun p => (some (.enum p.1), p.2))
  | _ => none

/-- Decode a layer-type tag. -/
def decLayerType : List Nat → Option (LayerType × List Nat)
  | 0 :: rest => some (.characters, rest)
  | 1 :: rest => some (.span, rest)
  | 2 :: rest => some (.seq, rest)
  | 3 :: rest => some (.element, rest)
  | 4 :: rest => some (.div, rest)
  | _ => none

/-- Decode a layer declaration. -/
def decLayerDesc (l : List Nat) : Option (LayerDesc × List Nat) := do
  let p ← decLayerType l
  let q ← decOptStr p.2
  let r ← decDataDesc q.2
  pure (⟨p.1, q.1, r.1⟩, r.2)

/-- Decode an offset pair. -/
def decPair (l : List Nat) : Option ((Nat × Nat) × List Nat) := do
  let p ← varDec l
  let q ← varDec p.2
  pure ((p.1, q.1), q.2)

/-- Decode an element entry. -/
def decElem (l : List Nat) : Option ((Nat × String) × List Nat) := do
  let p ← varDec l
  let q ← decStr p.2
  pure ((p.1, q.1), q.2)

/-- Decode a layer value. -/
def decLayerData : List Nat → Option (LayerData × List Nat)
  | 0 :: rest => (decStr rest).map (fun p => (.characters p.1, p.2))
  | 1 :: rest => (decList decPair rest).map (fun p => (.span p.1, p.2))
  | 2 :: rest => (decList decStr rest).map (fun p => (.seq p.1, p.2))
  | 3 :: rest => (decList decElem rest).map (fun p => (.element p.1, p.2))
  | _ => none

/-- Decode a named entry. -/
def decNamed {α : Type} (item : List Nat → Option (α × List Nat))
    (l : List Nat) : Option ((String × α) × List Nat) := do
  let p ← decStr l
  let q ← item p.2
  pure ((p.1, q.1), q.2)

/-- Binary corpus decoding; all input must be consumed. -/
def read_cuac (l : List Nat) : Option Corpus := do
  let p ← decList (decNamed decLayerDesc) l
  let q ← decList (decNamed (decList (decNamed decLayerData))) p.2
  if q.2.isEmpty then pure ⟨p.1, q.1⟩ else none

/-! ## Auxiliary predicates and fixed corpora used by the claims -/

/-- The layer type a value inhabits. -/
def LayerData.typeOf : LayerData → LayerType
  | .characters _ => .characters
  | .span _ => .span
  | .seq _ => .seq
  | .element _ => .element

/-- Whether a layer value is a `characters` value. -/
def LayerData.isChars : LayerData → Bool
  | .characters _ => true
  | _ => false

/-- Whether an optional layer value is a `characters` value. -/
def isCharsOpt : Option LayerData → Bool
  | some (.characters _) => true
  | _ => false

/-- String-list membership by propositional equality. -/
def containsStr (xs : List String) (s : String) : Bool :=
  xs.any (fun x => x = s)

/-- Whether a list of names has no duplicates. -/
def listNodup : List String → Bool
  | [] => true
  | x :: xs => !containsStr xs x && listNodup xs

/-- A name the text codecs can carry verbatim: nonempty, not starting
with a space, and free of colons, newlines and double quotes. -/
def plainName (s : String) : Bool :=
  (match s.toList with
   | [] => false
   | ch :: _ => ch ≠ ' ') &&
  s.toList.all (fun ch => ch ≠ ':' && ch ≠ '\n' && ch ≠ '"')

/-- A string value the unescaping-free model codecs can carry: free of
double quotes and newlines. -/
def plainValue (s : String) : Bool :=
  s.toList.all (fun ch => ch ≠ '"' && ch ≠ '\n')

/-- Well-formedness of a layer declaration for the text codecs. -/
def wfDesc (desc : LayerDesc) : Bool :=
  (match desc.base with
   | some b => plainName b
   | none => true) &&
  (match desc.data with
   | some (.enum vs) => vs.all plainValue
   | _ => true)

/-- Well-formedness of a layer value for the text codecs. -/
def wfLayerData : LayerData → Bool
  | .characters t => plainValue t
  | .span _ => true
  | .seq vs => vs.all plainValue
  | .element es => es.all (fun p => plainValue p.2)

/-- Well-formedness of a document against the schema: plain layer
names, plain values, and every layer declared with the value's type. -/
def wfDoc (meta : List (String × LayerDesc)) (d : Document) : Bool :=
  d.all (fun p => plainName p.1 && wfLayerData p.2 &&
    (match alookup p.1 meta with
     | some desc => desc.layer_type = p.2.typeOf
     | none => false))

/-- Well-formedness of a corpus for the text codecs: distinct plainly
named layers, plain descriptors, plainly named documents conforming to
the schema. -/
def wfCorpus (c : Corpus) : Bool :=
  listNodup (c.meta.map Prod.fst) &&
  c.meta.all (fun p => plainName p.1 && wfDesc p.2) &&
  c.docs.all (fun p => plainName p.1 && wfDoc c.meta p.2)

/-- Whether a list of names is in codec emission order. -/
def sortedNames : List String → Bool
  | [] => true
  | [_] => true
  | a :: b :: rest => lexLe a.toList b.toList && sortedNames (b :: rest)

/-- Whether a corpus is already in sorted-key normal form. -/
def isSortedCorpus (c : Corpus) : Bool :=
  sortedNames (c.meta.map Prod.fst) &&
  c.docs.all (fun p => sortedNames (p.2.map Prod.fst))

/-- The YAML text `test_to_yaml_str` asserts for the basic corpus. -/
def yamlBasicLiteral : String :=
  "_meta:\n    pos:\n        type: seq\n        base: words\n        data: string\n    text:\n        type: characters\n    words:\n        type: span\n        base: text\nKjco:\n    pos: [\"DT\",\"VBZ\",\"DT\",\"NN\",\".\"]\n    text: This is a document.\n    words: [[0,4],[5,7],[8,9],[10,18],[18,19]]\n9wpe:\n    pos: [\"JJ\",\"JJ\",\"NNS\",\"VBZ\",\"RB\"]\n    text: Colorless green ideas sleep furiously.\n    words: [[0,8],[9,16],[17,22],[23,30],[31,40]]\n"

/-- The corpus of `test_update_docs`: `text`/`words` schema, one
document holding only its text. -/
def updCorp : Corpus :=
  let c := addLayerMetaD Corpus.empty "text" ⟨.characters, none, none⟩
  let c := addLayerMetaD c "words" ⟨.span, some "text", none⟩
  addDocD c [("text", .characters "This is a document.")]

/-- The corpus of `test_search` (spec §8 example scenario). -/
def searchCorp : Corpus :=
  let c := addLayerMetaD Corpus.empty "text" ⟨.characters, none, none⟩
  let c := addLayerMetaD c "words" ⟨.span, some "text", none⟩
  let c := addLayerMetaD c "pos"
    ⟨.seq, some "words", some (.enum ["NOUN", "VERB", "ADJ", "ADV"])⟩
  let c := addLayerMetaD c "lemma" ⟨.seq, some "words", some .string⟩
  let c := addDocD c
    [("text", .characters "Colorless green ideas sleep furiously.")]
  let c := setLayerD c "9wpe" "words"
    (.span [(0, 9), (10, 15), (16, 21), (22, 27), (28, 37)])
  let c := setLayerD c "9wpe" "pos" (.seq ["ADJ", "ADJ", "NOUN", "VERB", "ADV"])
  setLayerD c "9wpe" "lemma"
    (.seq ["colorless", "green", "idea", "sleep", "furiously"])

/-- A two-document corpus on which a literal query and a membership
query over a larger value list disagree. -/
def twoPosCorp : Corpus :=
  ⟨[("text", ⟨.characters, none, none⟩),
    ("pos", ⟨.seq, some "text", some (.enum ["NOUN", "VERB"])⟩)],
   [("A", [("pos", .seq ["NOUN"])]),
    ("B", [("pos", .seq ["VERB"])])]⟩

/-- The corpus of `test_text_freq`. -/
def freqCorp : Corpus :=
  let c := addLayerMetaD Corpus.empty "text" ⟨.characters, none, none⟩
  let c := addLayerMetaD c "words" ⟨.span, some "text", none⟩
  let c := addDocD c [("text", .characters "This is a document.")]
  setLayerD c "Kjco" "words" (.span [(0, 4), (5, 7), (8, 9), (10, 18)])

/-- The corpus of `test_val_freq` before its `pos` mutation: the `pos`
layer is declared with the closed enumerated set `NOUN`/`VERB`/`ADJ`. -/
def valFreqCorp : Corpus :=
  let c := addLayerMetaD Corpus.empty "text" ⟨.characters, none, none⟩
  let c := addLayerMetaD c "words" ⟨.span, some "text", none⟩
  let c := addLayerMetaD c "pos"
    ⟨.seq, some "words", some (.enum ["NOUN", "VERB", "ADJ"])⟩
  let c := addDocD c
    [("text", .characters "Colorless green ideas sleep furiously.")]
  setLayerD c "9wpe" "words"
    (.span [(0, 9), (10, 15), (16, 21), (22, 28), (29, 37)])

/-- The `pos` value `test_val_freq` stores: `ADV` lies outside the
declared enumerated set. -/
def advPos : LayerData := .seq ["ADJ", "ADJ", "NOUN", "VERB", "ADV"]

/-- The `test_val_freq` corpus after its out-of-enum `pos` mutation. -/
def valFreqCorpAfter : Corpus := setLayerD valFreqCorp "9wpe" "pos" advPos

/-- A corpus whose schema is exactly an `Element → Span → Characters`
base chain over the three given layer names. -/
def mkChainCorpus (tn sn en : String) : Corpus :=
  ⟨[(tn, ⟨.characters, none, none⟩),
    (sn, ⟨.span, some tn, none⟩),
    (en, ⟨.element, some sn, some .string⟩)], []⟩

/-- An `Element → Span → Characters` chain corpus (`test_elem_layer`
schema) used to witness projection transitivity. -/
def elemChainCorp : Corpus := mkChainCorpus "text" "words" "is_noun"

/-- The `test_update_docs` corpus after its `words` mutation. -/
def updCorpAfter : Corpus :=
  setLayerD updCorp "Kjco" "words"
    (.span [(0, 4), (5, 7), (8, 9), (10, 18), (18, 19)])

/-- The `test_elem_layer` document. -/
def elemChainDoc : Document :=
  [("text", .characters "This is a document."),
   ("words", .span [(0, 4), (5, 7), (8, 9), (10, 18), (18, 19)]),
   ("is_noun", .element [(3, "Yes")])]

/-- The basic corpus after `test_update_doc`'s text edit. -/
def basicAfterUpdate : Corpus :=
  setLayerD create_basic_corpus "Kjco" "text"
    (.characters "This is an updated document.")

/-- The single-layer corpus of `test_char_layers`. -/
def charCorp : Corpus :=
  let c := addLayerMetaD Corpus.empty "text" ⟨.characters, none, none⟩
  addDocD c [("text", .characters "This")]

/-- Strict name order on named association-list entries. -/
def nameLt {α : Type} (p q : String × α) : Prop := nameLe p q ∧ p.1 ≠ q.1

/-! # Verification

Helper lemmas first, then one theorem per specification claim. -/

/-! ## Frequency tables count occurrences -/

theorem alookup_cons {α : Type} (n k : String) (v : α) (l : List (String × α)) :
    alookup n ((k, v) :: l) = if k = n then some v else alookup n l := rfl

theorem countOf_bump (s t : String) (acc : List (String × Nat)) :
    countOf (bump s acc) t = countOf acc t + (if t = s then 1 else 0) := by
  induction acc with
  | nil =>
      by_cases h : t = s
      · subst h; simp [bump, countOf, alookup]
      · have h2 : ¬ s = t := fun h' => h h'.symm
        simp [bump, countOf, alookup, h, h2]
  | cons p rest ih =>
      obtain ⟨k, v⟩ := p
      by_cases hps : k = s
      · subst hps
        by_cases hpt : k = t
        · subst hpt; simp [bump, countOf, alookup]
        · have h2 : ¬ t = k := fun h' => hpt h'.symm
          simp [bump, countOf, alookup, hpt, h2]
      · simp only [bump, if_neg hps]
        by_cases hpt : k = t
        · subst hpt
          simp [countOf, alookup, hps]
        · simp only [countOf, alookup_cons, if_neg hpt]
          simp only [countOf] at ih
          exact ih

theorem countOf_foldl (l : List String) (acc : List (String × Nat)) (t : String) :
    countOf (l.foldl (fun a s => bump s a) acc) t = countOf acc t + countStr l t := by
  induction l generalizing acc with
  | nil => simp [countStr]
  | cons s rest ih =>
      simp only [List.foldl_cons]
      rw [ih, countOf_bump]
      simp only [countStr, List.filter_cons]
      by_cases h : t = s
      · subst h
        simp [countStr]
        omega
      · have h2 : ¬ s = t := fun h' => h h'.symm
        simp [h, h2]

theorem countOf_countAll (l : List String) (t : String) :
    countOf (countAll l) t = countStr l t := by
  have h := countOf_foldl l [] t
  simpa [countAll, countOf, alookup] using h

/-- C9.  `text_freq` maps each surface string of the layer (the
projection of its elements to the underlying `characters` layer) to its
occurrence count across all documents, counting only strings passing
the predicate; `val_freq` maps each stored value to its count, filtered
by a value set or predicate; and both reproduce the frequency tables
the repository's `test_text_freq` and `test_val_freq` assert. -/
theorem freq_counts :
    (∀ (c : Corpus) (ln : String) (pred : String → Bool) (s : String),
       countOf (c.text_freq ln pred) s = countStr ((surfaceStrings c ln).filter pred) s) ∧
    (∀ (c : Corpus) (ln : String) (f : ValFilter) (s : String),
       countOf (c.val_freq ln f) s = countStr ((storedStrings c ln).filter f.keep) s) ∧
    freqCorp.text_freq "words" (fun _ => true) =
      [("This", 1), ("is", 1), ("a", 1), ("document", 1)] ∧
    freqCorp.text_freq "words" (fun x => x.toList.contains 'i') =
      [("This", 1), ("is", 1)] ∧
    valFreqCorpAfter.val_freq "pos" .all =
      [("ADJ", 2), ("NOUN", 1), ("VERB", 1), ("ADV", 1)] ∧
    valFreqCorpAfter.val_freq "pos" (.within ["NOUN", "VERB"]) =
      [("NOUN", 1), ("VERB", 1)] ∧
    valFreqCorpAfter.val_freq "pos" (.pred fun x => x.toList.getD 0 ' ' = 'A') =
      [("ADJ", 2), ("ADV", 1)] := by
  refine ⟨?_, ?_, by decide, by decide, by decide, by decide, by decide⟩
  · intro c ln pred s; exact countOf_countAll _ _
  · intro c ln f s; exact countOf_countAll _ _

/-! ## Characters-layer self views -/

/-- C10.  A `characters` layer holding a string of `n` characters has a
`.data` view of `n` `none`s, a `.text` view holding the whole string,
and a self `.indexes` view equal to the identity spans
`[(0,1),(1,2),...,(n-1,n)]`. -/
theorem characters_self_view (c : Corpus) (d : Document) (ln s : String)
    (h : alookup ln d = some (LayerData.characters s)) :
    dataView (LayerData.characters s) = List.replicate s.length none ∧
    textView c d ln = [s] ∧
    indexes c d ln ln = (List.range s.length).map (fun i => (i, i + 1)) := by
  refine ⟨rfl, ?_, ?_⟩
  · simp [textView, h]
  · simp [indexes, h, layerCount]

/-- Witness for C10 at the `test_char_layers` document. -/
theorem characters_self_view_witness :
    dataView (LayerData.characters "This") = [none, none, none, none] ∧
    textView charCorp [("text", LayerData.characters "This")] "text" = ["This"] ∧
    indexes charCorp [("text", LayerData.characters "This")] "text" "text" =
      [(0, 1), (1, 2), (2, 3), (3, 4)] := by
  have h := characters_self_view charCorp [("text", LayerData.characters "This")]
    "text" "This" (by decide)
  refine ⟨?_, h.2.1, ?_⟩
  · rw [h.1]; decide
  · rw [h.2.2]; decide

/-! ## YAML layout -/

/-- C6 counterexample: the basic corpus declares its layers in the
order `text`, `words`, `pos`, but the emitted `_meta` block lists them
as `pos`, `text`, `words` — layer keys are not serialized in
declaration order. -/
theorem yaml_decl_order_cex :
    create_basic_corpus.meta.map Prod.fst = ["text", "words", "pos"] ∧
    (splitLines create_basic_corpus.to_yaml_str.toList).filterMap parseEntryHeader =
      ["pos", "text", "words"] := by decide

/-- C6 (amended).  YAML serialization emits the `_meta` block first and
then one block per document ID in insertion order, with 4-space nested
indentation and lists as flow sequences, but layer keys sorted by name
rather than in declaration order; for the basic corpus the output
equals the expected literal text exactly. -/
theorem yaml_layout :
    create_basic_corpus.to_yaml_str = yamlBasicLiteral ∧
    (splitLines yamlBasicLiteral.toList).filterMap parseDocHeader =
      ["_meta", "Kjco", "9wpe"] ∧
    sortedNames ((splitLines yamlBasicLiteral.toList).filterMap parseEntryHeader) =
      true := by decide

/-! ## Enumerated `data` constraints are not enforced -/

theorem validateLayer_ignores_data (c : Corpus) (name : String) (v : LayerData) :
    validateLayer c name v =
      (match alookup name c.meta with
       | some desc => decide (desc.layer_type = v.typeOf)
       | none => false) := by
  unfold validateLayer
  cases h : alookup name c.meta with
  | none => rfl
  | some desc =>
      obtain ⟨lt, b, dd⟩ := desc
      cases lt <;> cases v <;> rfl

/-- C7 counterexample: `test_val_freq` declares `pos` with the closed
set `NOUN`/`VERB`/`ADJ` and then sets a `pos` sequence containing
`ADV`; `set_layer` succeeds (no `ValidationError`) and the document is
changed to hold the out-of-set value. -/
theorem enum_not_enforced_cex :
    alookup "pos" valFreqCorp.meta =
      some ⟨.seq, some "words", some (.enum ["NOUN", "VERB", "ADJ"])⟩ ∧
    containsStr ["NOUN", "VERB", "ADJ"] "ADV" = false ∧
    valFreqCorp.set_layer "9wpe" "pos" advPos = .ok ("9wpe", valFreqCorpAfter) ∧
    alookup "pos" ((alookup "9wpe" valFreqCorpAfter.docs).getD []) = some advPos := by
  decide

/-- C7 (amended).  Enumerated `data` constraints are not enforced at
mutation time: validation checks only that the value's kind matches the
declared layer type (never the `data` field), so `set_layer` with a
sequence containing out-of-set values succeeds and stores the value. -/
theorem setLayer_ignores_enum :
    (∀ (c : Corpus) (name : String) (v : LayerData),
       validateLayer c name v =
         (match alookup name c.meta with
          | some desc => decide (desc.layer_type = v.typeOf)
          | none => false)) ∧
    (∀ (c : Corpus) (docId name : String) (v : LayerData) (d : Document),
       alookup docId c.docs = some d → validateLayer c name v = true →
       c.set_layer docId name v =
         .ok (teanga_id (setAssoc d name v),
              ⟨c.meta, c.docs.map (fun p =>
                if p.1 = docId then (teanga_id (setAssoc d name v), setAssoc d name v)
                else p)⟩)) := by
  refine ⟨validateLayer_ignores_data, ?_⟩
  intro c docId name v d hd hv
  simp [Corpus.set_layer, hd, hv]

/-- Witness for C7 (amended): the out-of-enum `pos` mutation of
`test_val_freq` succeeds. -/
theorem setLayer_ignores_enum_witness :
    valFreqCorp.set_layer "9wpe" "pos" advPos = .ok ("9wpe", valFreqCorpAfter) := by
  have h := setLayer_ignores_enum.2 valFreqCorp "9wpe" "pos" advPos
    ((alookup "9wpe" valFreqCorp.docs).getD []) (by decide) (by decide)
  rw [h]
  decide

/-! ## Document identity depends on the characters layers only -/

theorem charPair_nonchar (k : String) (w : LayerData) (hw : w.isChars = false) :
    charPair (k, w) = none := by
  cases w <;> simp [LayerData.isChars] at hw ⊢ <;> rfl

theorem charLayers_append (d e : Document) :
    charLayers (d ++ e) = charLayers d ++ charLayers e := by
  induction d with
  | nil => rfl
  | cons p rest ih =>
      simp only [List.cons_append, charLayers]
      cases charPair p with
      | none => exact ih
      | some q => simp [ih]

theorem charLayers_map_replace (d : List (String × LayerData)) (k : String)
    (v : LayerData) (hv : v.isChars = false)
    (hd : ∀ p ∈ d, p.1 = k → p.2.isChars = false) :
    charLayers (d.map (fun p => if p.1 = k then (k, v) else p)) = charLayers d := by
  induction d with
  | nil => rfl
  | cons p rest ih =>
      obtain ⟨k', w⟩ := p
      have ihr := ih (fun q hq hn => hd q (List.mem_cons_of_mem _ hq) hn)
      by_cases hk : k' = k
      · subst hk
        have hw : w.isChars = false := hd (k', w) (by simp) rfl
        simp only [List.map_cons]
        simp [charLayers, charPair_nonchar k' v hv, charPair_nonchar k' w hw, ihr]
      · simp only [List.map_cons]
        simp only [show ((k', w).1 = k) = False from by simp [hk], if_false]
        simp only [charLayers]
        cases charPair (k', w) with
        | none => exact ihr
        | some q => simp [ihr]

theorem charLayers_setAssoc_nonchar (d : Document) (name : String) (v : LayerData)
    (hv : v.isChars = false) (hd : ∀ p ∈ d, p.1 = name → p.2.isChars = false) :
    charLayers (setAssoc d name v) = charLayers d := by
  unfold setAssoc
  by_cases h : (alookup name d).isSome = true
  · rw [if_pos h]
    exact charLayers_map_replace d name v hv hd
  · rw [if_neg h]
    rw [charLayers_append]
    simp [charLayers, charPair_nonchar name v hv]

/-- C2 counterexample: in the `test_update_docs` scenario, setting the
`words` layer changes the document's content but its ID is returned and
kept unchanged (`Kjco`). -/
theorem setLayer_content_change_id_cex :
    updCorp.set_layer "Kjco" "words"
        (.span [(0, 4), (5, 7), (8, 9), (10, 18), (18, 19)]) =
      .ok ("Kjco", updCorpAfter) ∧
    alookup "Kjco" updCorpAfter.docs ≠ alookup "Kjco" updCorp.docs ∧
    updCorpAfter.doc_ids = updCorp.doc_ids := by decide

/-- C2 (amended).  The document ID is a function of the `characters`
layers only: mutating a non-`characters` layer never changes the ID,
while the tested `characters` edit does (`Kjco` to `JHEz`). -/
theorem id_depends_on_characters_only :
    (∀ (d : Document) (name : String) (v : LayerData),
       v.isChars = false → (∀ p ∈ d, p.1 = name → p.2.isChars = false) →
       teanga_id (setAssoc d name v) = teanga_id d) ∧
    teanga_id [("text", .characters "This is a document.")] = "Kjco" ∧
    teanga_id [("text", .characters "This is an updated document.")] = "JHEz" := by
  refine ⟨?_, by decide, by decide⟩
  intro d name v hv hd
  unfold teanga_id idBytes
  rw [charLayers_setAssoc_nonchar d name v hv hd]

/-- Witness for C2 (amended): adding the `words` span layer of
`test_update_docs` leaves the document ID unchanged. -/
theorem id_depends_on_characters_only_witness :
    teanga_id (setAssoc [("text", LayerData.characters "This is a document.")]
      "words" (.span [(0, 4), (5, 7), (8, 9), (10, 18), (18, 19)])) =
    teanga_id [("text", LayerData.characters "This is a document.")] :=
  id_depends_on_characters_only.1 _ _ _ (by decide) (by decide)

/-! ## `set_layer` re-keys the document in place -/

/-- C8.  When `set_layer` succeeds, the document is re-keyed under the
newly computed content ID at its old position in iteration order, and
every other document (ID, content, relative order) is untouched. -/
theorem setLayer_rekeys_in_place (c : Corpus) (docId name : String)
    (v : LayerData) (d : Document) (hd : alookup docId c.docs = some d)
    (hv : validateLayer c name v = true) :
    ∃ newId c', c.set_layer docId name v = .ok (newId, c') ∧
      newId = teanga_id (setAssoc d name v) ∧
      c'.meta = c.meta ∧
      c'.docs = c.docs.map
        (fun p => if p.1 = docId then (newId, setAssoc d name v) else p) ∧
      c'.doc_ids = c.doc_ids.map (fun i => if i = docId then newId else i) ∧
      (∀ p ∈ c.docs, p.1 ≠ docId → p ∈ c'.docs) := by
  refine ⟨teanga_id (setAssoc d name v),
          ⟨c.meta, c.docs.map (fun p =>
            if p.1 = docId then (teanga_id (setAssoc d name v), setAssoc d name v)
            else p)⟩,
          ?_, rfl, rfl, rfl, ?_, ?_⟩
  · simp [Corpus.set_layer, hd, hv]
  · simp only [Corpus.doc_ids, List.map_map]
    apply List.map_congr_left
    intro p _
    by_cases h : p.1 = docId <;> simp [h]
  · intro p hp hne
    exact List.mem_map.mpr ⟨p, hp, by simp [hne]⟩

/-- Witness for C8: the `test_update_doc` text edit re-keys `Kjco` to
`JHEz` in place, leaving `9wpe` untouched. -/
theorem setLayer_rekeys_in_place_witness :
    (∃ newId c', create_basic_corpus.set_layer "Kjco" "text"
        (.characters "This is an updated document.") = .ok (newId, c') ∧
      newId = teanga_id (setAssoc
        ((alookup "Kjco" create_basic_corpus.docs).getD []) "text"
        (.characters "This is an updated document.")) ∧
      c'.meta = create_basic_corpus.meta ∧
      c'.docs = create_basic_corpus.docs.map
        (fun p => if p.1 = "Kjco" then (newId, setAssoc
          ((alookup "Kjco" create_basic_corpus.docs).getD []) "text"
          (.characters "This is an updated document.")) else p) ∧
      c'.doc_ids = create_basic_corpus.doc_ids.map
        (fun i => if i = "Kjco" then newId else i) ∧
      (∀ p ∈ create_basic_corpus.docs, p.1 ≠ "Kjco" → p ∈ c'.docs)) ∧
    basicAfterUpdate.doc_ids = ["JHEz", "9wpe"] :=
  ⟨setLayer_rekeys_in_place create_basic_corpus "Kjco" "text"
     (.characters "This is an updated document.")
     ((alookup "Kjco" create_basic_corpus.docs).getD []) (by decide) (by decide),
   by decide⟩

/-! ## Query operator equivalences -/

theorem search_congr (c : Corpus) (q₁ q₂ : Query)
    (h : ∀ d : Document, evalQuery c d q₁ = evalQuery c d q₂) :
    c.search q₁ = c.search q₂ := by
  unfold Corpus.search
  rw [List.filter_congr]
  intro p _
  exact h p.2

theorem condMatches_lit_inOp (v s : String) :
    condMatches (.lit v) s = condMatches (.inOp [v]) s := by
  simp only [condMatches, List.contains_cons, List.contains_nil, Bool.or_false]
  by_cases h : s = v
  · subst h; simp
  · simp [h, fun h' : v = s => h h'.symm]

/-- C5 counterexample: on a two-document corpus, a literal query for
`NOUN` does not return the same IDs as a list (or `$in`) query for
`["NOUN","VERB"]` even though the list contains the literal. -/
theorem query_literal_vs_in_cex :
    twoPosCorp.search (.fields [("pos", Cond.lit "NOUN")]) = ["A"] ∧
    twoPosCorp.search (.fields [("pos", Cond.listOf ["NOUN", "VERB"])]) = ["A", "B"] ∧
    twoPosCorp.search (.fields [("pos", Cond.inOp ["NOUN", "VERB"])]) = ["A", "B"] ∧
    containsStr ["NOUN", "VERB"] "NOUN" = true := by decide

/-- C5 (amended).  A literal query is equivalent to `$in` of the
singleton list, a list query is equivalent to `$in` of the same list,
an implicit mapping of conditions is equivalent to the explicit `$and`,
and a non-`characters` layer matches a literal through either a stored
value or a projected surface text (witnessed concretely by the
`test_search` assertions). -/
theorem query_equivalences :
    (∀ (c : Corpus) (q : List (String × Cond)),
       c.search (.fields q) = c.search (.andQ q)) ∧
    (∀ (c : Corpus) (ln v : String),
       c.search (.fields [(ln, .lit v)]) = c.search (.fields [(ln, .inOp [v])])) ∧
    (∀ (c : Corpus) (ln : String) (vs : List String),
       c.search (.fields [(ln, .listOf vs)]) = c.search (.fields [(ln, .inOp vs)])) ∧
    (∀ (c : Corpus) (d : Document) (ln s : String) (v : LayerData),
       alookup ln d = some v → v.isChars = false →
       s ∈ storedVals v ++ textView c d ln →
       docMatchesCond c d (ln, .lit s) = true) ∧
    searchCorp.search (.fields [("pos", .lit "VERB"), ("words", .lit "ideas")]) =
      ["9wpe"] ∧
    searchCorp.search (.fields [("pos", .lit "VERB"), ("lemma", .lit "sleep")]) =
      ["9wpe"] := by
  refine ⟨?_, ?_, ?_, ?_, by decide, by decide⟩
  · intro c q; exact search_congr c _ _ (fun d => rfl)
  · intro c ln v
    apply search_congr
    intro d
    simp only [evalQuery, List.all_cons, List.all_nil, Bool.and_true]
    unfold docMatchesCond
    rw [show condMatches (Cond.lit v) = condMatches (Cond.inOp [v]) from
        funext (condMatches_lit_inOp v)]
  · intro c ln vs; exact search_congr c _ _ (fun d => rfl)
  · intro c d ln s v hl hnc hs
    unfold docMatchesCond
    apply List.any_eq_true.mpr
    refine ⟨s, ?_, by simp [condMatches]⟩
    cases v with
    | characters t => simp [LayerData.isChars] at hnc
    | span ss => simpa [candidateVals, hl] using hs
    | seq vs => simpa [candidateVals, hl] using hs
    | element es => simpa [candidateVals, hl] using hs

/-- Witness for C5 at the `test_search` corpus: the span layer matches
its projected surface text `ideas`, and a literal `pos` query equals
the singleton `$in` query. -/
theorem query_equivalences_witness :
    docMatchesCond searchCorp ((alookup "9wpe" searchCorp.docs).getD [])
      ("words", .lit "ideas") = true ∧
    searchCorp.search (.fields [("pos", Cond.lit "NOUN")]) =
      searchCorp.search (.fields [("pos", Cond.inOp ["NOUN"])]) :=
  ⟨query_equivalences.2.2.2.1 searchCorp
     ((alookup "9wpe" searchCorp.docs).getD []) "words" "ideas"
     (.span [(0, 9), (10, 15), (16, 21), (22, 27), (28, 37)])
     (by decide) (by decide) (by decide),
   query_equivalences.2.1 searchCorp "pos" "NOUN"⟩

/-! ## Index projection is transitive across the base chain -/

/-- C4.  In an `Element → Span → Characters` chain, projecting an
element's index directly down to the `characters` layer yields exactly
the ranges obtained by projecting to the span layer first and then
projecting that result through the span layer's `characters` view, so
the derived substring is the same either way. -/
theorem projection_transitive (tn sn en : String) (t : String)
    (ss : List (Nat × Nat)) (es : List (Nat × String)) (d : Document)
    (hts : tn ≠ sn) (hte : tn ≠ en) (hse : sn ≠ en)
    (hdt : alookup tn d = some (.characters t))
    (hds : alookup sn d = some (.span ss))
    (hde : alookup en d = some (.element es)) :
    indexes (mkChainCorpus tn sn en) d en tn =
      (indexes (mkChainCorpus tn sn en) d en sn).map
        (projectRangeVia (indexes (mkChainCorpus tn sn en) d sn tn)) := by
  have hmeta : (mkChainCorpus tn sn en).meta.length = 3 := rfl
  have hent : ¬ en = tn := fun h => hte h.symm
  have hens : ¬ en = sn := fun h => hse h.symm
  have hsnt : ¬ sn = tn := fun h => hts h.symm
  have hme : alookup en (mkChainCorpus tn sn en).meta =
      some ⟨.element, some sn, some .string⟩ := by
    simp [mkChainCorpus, alookup, hte, hse]
  have hms : alookup sn (mkChainCorpus tn sn en).meta =
      some ⟨.span, some tn, none⟩ := by
    simp [mkChainCorpus, alookup, hts]
  have hproj : ∀ r : Nat × Nat,
      projDown (mkChainCorpus tn sn en) d 3 sn tn r = projectRangeVia ss r := by
    intro r
    simp only [projDown, if_neg hsnt, hms, hds]
    simp [projDown, elemRanges]
  have hid : ∀ r : Nat × Nat,
      projDown (mkChainCorpus tn sn en) d 3 sn sn r = r := by
    intro r
    simp [projDown]
  have hl : indexes (mkChainCorpus tn sn en) d en tn =
      (elemRanges (.element es)).map (projectRangeVia ss) := by
    unfold indexes
    rw [if_neg hent, hme, hde]
    simp only [hmeta]
    exact List.map_congr_left (fun r _ => hproj r)
  have hr1 : indexes (mkChainCorpus tn sn en) d en sn =
      elemRanges (.element es) := by
    unfold indexes
    rw [if_neg hens, hme, hde]
    simp only [hmeta]
    rw [List.map_congr_left (fun r _ => hid r)]
    exact List.map_id _
  have hr2 : indexes (mkChainCorpus tn sn en) d sn tn = ss := by
    unfold indexes
    rw [if_neg hsnt, hms, hds]
    simp only [hmeta]
    have : ∀ r : Nat × Nat,
        projDown (mkChainCorpus tn sn en) d 3 tn tn r = r := by
      intro r; simp [projDown]
    rw [List.map_congr_left (fun r _ => this r)]
    simp [elemRanges]
  rw [hl, hr1, hr2]

/-! ## Document identity is deterministic and content-order independent -/

theorem lexLe_total (a : List Char) : ∀ b, lexLe a b = true ∨ lexLe b a = true := by
  induction a with
  | nil => intro b; left; rfl
  | cons x xs ih =>
      intro b
      cases b with
      | nil => right; rfl
      | cons y ys =>
          simp only [lexLe]
          rcases Nat.lt_trichotomy x.toNat y.toNat with h | h | h
          · left; simp [h]
          · rcases ih ys with h2 | h2
            · left; simp [h, Nat.lt_irrefl, h2]
            · right; simp [h, Nat.lt_irrefl, h2]
          · right; simp [h]

theorem lexLe_trans : ∀ (a b c : List Char), lexLe a b = true → lexLe b c = true →
    lexLe a c = true := by
  intro a
  induction a with
  | nil => intro b c _ _; rfl
  | cons x xs ih =>
      intro b c hab hbc
      cases b with
      | nil => simp [lexLe] at hab
      | cons y ys =>
          cases c with
          | nil => simp [lexLe] at hbc
          | cons z zs =>
              simp only [lexLe] at hab hbc ⊢
              by_cases hxy : x.toNat < y.toNat <;> by_cases hyx : y.toNat < x.toNat <;>
                by_cases hyz : y.toNat < z.toNat <;> by_cases hzy : z.toNat < y.toNat <;>
                  simp [hxy, hyx, hyz, hzy] at hab hbc <;>
                    first
                      | (exfalso; omega)
                      | (rw [if_pos (show x.toNat < z.toNat by omega)])
                      | (rw [if_neg (show ¬ x.toNat < z.toNat by omega),
                             if_neg (show ¬ z.toNat < x.toNat by omega)]
                         exact ih ys zs hab hbc)

theorem lexLe_antisymm : ∀ (a b : List Char), lexLe a b = true → lexLe b a = true →
    a = b := by
  intro a
  induction a with
  | nil =>
      intro b h1 h2
      cases b with
      | nil => rfl
      | cons y ys => simp [lexLe] at h2
  | cons x xs ih =>
      intro b h1 h2
      cases b with
      | nil => simp [lexLe] at h1
      | cons y ys =>
          simp only [lexLe] at h1 h2
          by_cases hxy : x.toNat < y.toNat
          · simp [hxy, Nat.lt_asymm hxy] at h2
          · by_cases hyx : y.toNat < x.toNat
            · simp [hyx, hxy] at h1
            · have hn : x.toNat = y.toNat := by omega
              have hc : x = y := by
                have h3 := congrArg Char.ofNat hn
                rwa [Char.ofNat_toNat, Char.ofNat_toNat] at h3
              subst hc
              simp [hxy, hyx] at h1 h2
              rw [ih ys h1 h2]

instance nameLeTotal {α : Type} : IsTotal (String × α) nameLe :=
  ⟨fun p q => lexLe_total p.1.toList q.1.toList⟩

instance nameLeTrans {α : Type} : IsTrans (String × α) nameLe :=
  ⟨fun _ _ _ h1 h2 => lexLe_trans _ _ _ h1 h2⟩

instance nameLtAntisymm {α : Type} : IsAntisymm (String × α) nameLt :=
  ⟨fun p q h1 h2 => by
    exfalso
    apply h1.2
    have h3 := lexLe_antisymm _ _ h1.1 h2.1
    exact String.ext (by simpa [String.toList] using h3)⟩

theorem sorted_nameLt {α : Type} (l : List (String × α)) (hs : l.Sorted nameLe)
    (hn : (l.map Prod.fst).Nodup) : l.Sorted nameLt := by
  have hp : l.Pairwise (fun p q : String × α => p.1 ≠ q.1) :=
    List.pairwise_map.mp hn
  exact List.Pairwise.and hs hp

theorem sortByName_eq_of_perm {α : Type} (l₁ l₂ : List (String × α))
    (hp : l₁.Perm l₂) (hn : (l₁.map Prod.fst).Nodup) :
    sortByName l₁ = sortByName l₂ := by
  have h1 := List.perm_insertionSort (@nameLe α) l₁
  have h2 := List.perm_insertionSort (@nameLe α) l₂
  have hp2 : List.Perm (sortByName l₁) (sortByName l₂) :=
    h1.trans (hp.trans h2.symm)
  have hn2 : (l₂.map Prod.fst).Nodup := ((hp.map Prod.fst).nodup_iff).mp hn
  have hs1 : (sortByName l₁).Sorted nameLe := List.sorted_insertionSort _ _
  have hs2 : (sortByName l₂).Sorted nameLe := List.sorted_insertionSort _ _
  have hn1' : ((sortByName l₁).map Prod.fst).Nodup :=
    ((h1.map Prod.fst).nodup_iff).mpr hn
  have hn2' : ((sortByName l₂).map Prod.fst).Nodup :=
    ((h2.map Prod.fst).nodup_iff).mpr hn2
  exact List.eq_of_perm_of_sorted hp2 (sorted_nameLt _ hs1 hn1') (sorted_nameLt _ hs2 hn2')

theorem charLayers_filterMap (d : Document) : charLayers d = d.filterMap charPair := by
  induction d with
  | nil => rfl
  | cons p rest ih =>
      simp only [charLayers]
      cases hcp : charPair p with
      | none => rw [List.filterMap_cons_none hcp, ih]
      | some q => rw [List.filterMap_cons_some hcp, ih]

/-- C1.  `compute_id` is a pure, deterministic function of a document's
content: the basic corpus always gets IDs `Kjco`/`9wpe`, and documents
whose contents agree up to layer order (distinct `characters` layer
names permuted) get the identical ID. -/
theorem id_deterministic :
    create_basic_corpus.doc_ids = ["Kjco", "9wpe"] ∧
    (∀ d₁ d₂ : Document, ((charLayers d₁).map Prod.fst).Nodup → d₁.Perm d₂ →
       teanga_id d₁ = teanga_id d₂) := by
  refine ⟨by decide, ?_⟩
  intro d₁ d₂ hn hp
  have hcp : List.Perm (charLayers d₁) (charLayers d₂) := by
    rw [charLayers_filterMap, charLayers_filterMap]
    exact hp.filterMap charPair
  unfold teanga_id idBytes
  rw [show sortByName (charLayers d₁) = sortByName (charLayers d₂) from
      sortByName_eq_of_perm _ _ hcp hn]

/-- Witness for C1: the two-text document of `test_add_doc` gets the
same ID when its layers are given in either order. -/
theorem id_deterministic_witness :
    teanga_id [("en", LayerData.characters "This is a document."),
               ("nl", LayerData.characters "Dit is een document.")] =
    teanga_id [("nl", LayerData.characters "Dit is een document."),
               ("en", LayerData.characters "This is a document.")] :=
  id_deterministic.2 _ _ (by decide) (by decide)

/-- Witness for C4 at the `test_elem_layer` document: projecting
`is_noun` element 0 to `text` directly gives `(10, 18)`, the same as
going through `words` first. -/
theorem projection_transitive_witness :
    (indexes elemChainCorp elemChainDoc "is_noun" "text" =
      (indexes elemChainCorp elemChainDoc "is_noun" "words").map
        (projectRangeVia (indexes elemChainCorp elemChainDoc "words" "text"))) ∧
    indexes elemChainCorp elemChainDoc "is_noun" "text" = [(10, 18)] :=
  ⟨projection_transitive "text" "words" "is_noun" "This is a document."
     [(0, 4), (5, 7), (8, 9), (10, 18), (18, 19)] [(3, "Yes")] elemChainDoc
     (by decide) (by decide) (by decide) (by decide) (by decide) (by decide),
   by decide⟩


/-! ## Codec round-trip verification (claim C3)

Inversion lemmas showing each model parser inverts the corresponding
model printer, culminating in the round-trip theorems for the YAML,
JSON and binary codecs. -/

theorem plainName_parts (s : String) (h : plainName s = true) :
    (∃ c cs, s.toList = c :: cs ∧ c ≠ ' ') ∧
    ∀ c ∈ s.toList, c ≠ ':' ∧ c ≠ '\n' ∧ c ≠ '"' := by
  unfold plainName at h
  simp only [Bool.and_eq_true] at h
  constructor
  · cases hl : s.toList with
    | nil => rw [hl] at h; simp at h
    | cons c cs =>
        rw [hl] at h
        refine ⟨c, cs, rfl, ?_⟩
        have := h.1
        simpa using this
  · intro c hc
    have := (List.all_eq_true.mp h.2) c hc
    simp only [Bool.and_eq_true, decide_eq_true_eq] at this
    exact ⟨this.1.1, this.1.2, this.2⟩

theorem splitLinesAux_line (l rest acc : List Char) (hl : '\n' ∉ l) :
    splitLinesAux (l ++ '\n' :: rest) acc =
      (acc.reverse ++ l) :: splitLinesAux rest [] := by
  induction l generalizing acc with
  | nil => simp [splitLinesAux]
  | cons c cs ih =>
      have hc : ¬ c = '\n' := by intro h; exact hl (by simp [h])
      simp only [List.cons_append, splitLinesAux, if_neg hc, List.append_eq]
      rw [ih (c :: acc) (fun h => hl (by simp [h]))]
      simp

theorem splitLines_unlines (ls : List (List Char)) (h : ∀ l ∈ ls, '\n' ∉ l) :
    splitLines (unlines ls) = ls := by
  induction ls with
  | nil => rfl
  | cons l rest ih =>
      have h1 : unlines (l :: rest) = l ++ '\n' :: unlines rest := by
        simp [unlines]
      unfold splitLines
      rw [h1, splitLinesAux_line l (unlines rest) [] (h l (by simp))]
      have h2 := ih (fun x hx => h x (by simp [hx]))
      unfold splitLines at h2
      rw [h2]
      simp

theorem splitAtColon_inv (nm v : List Char) (h : ':' ∉ nm) :
    splitAtColon (nm ++ ':' :: v) = some (nm, v) := by
  induction nm with
  | nil => simp [splitAtColon]
  | cons c cs ih =>
      have hc : ¬ c = ':' := by intro hh; exact h (by simp [hh])
      simp only [List.cons_append, splitAtColon, if_neg hc, List.append_eq]
      rw [ih (fun hh => h (by simp [hh]))]

theorem dropIndent_exact (n : Nat) (l : List Char) :
    dropIndent n (List.replicate n ' ' ++ l) = some l := by
  induction n with
  | zero => rfl
  | succ k ih => simp [List.replicate, dropIndent, ih]

theorem dropIndent_nonspace (n : Nat) (c : Char) (l : List Char) (hc : c ≠ ' ') :
    dropIndent (n + 1) (c :: l) = none := by
  simp [dropIndent, hc]

theorem ind4_eq : ind4 = List.replicate 4 ' ' := rfl

theorem ind8_eq : ind8 = List.replicate 8 ' ' := rfl

theorem headName_cons (c : Char) (l : List Char) (hc : c ≠ ' ') :
    headName (c :: l) = some (c :: l) := by
  simp [headName, hc]

theorem parseEntryHeader_print (nm : String) (h : plainName nm = true) :
    parseEntryHeader (ind4 ++ nm.toList ++ [':']) = some nm := by
  obtain ⟨⟨c, cs, hcl, hcsp⟩, hall⟩ := plainName_parts nm h
  unfold parseEntryHeader
  rw [show ind4 ++ nm.toList ++ [':'] = List.replicate 4 ' ' ++ (nm.toList ++ [':']) by
      simp [ind4_eq]]
  rw [dropIndent_exact]
  simp only [Option.bind_eq_bind, Option.some_bind]
  rw [hcl]
  rw [show (c :: cs) ++ [':'] = c :: (cs ++ [':']) by simp]
  rw [headName_cons c (cs ++ [':']) hcsp]
  simp only [Option.some_bind]
  rw [show c :: (cs ++ [':']) = (c :: cs) ++ ':' :: [] by simp]
  rw [splitAtColon_inv (c :: cs) []
      (by rw [← hcl]; intro hmem; exact (hall ':' hmem).1 rfl)]
  rw [← hcl]
  rfl

theorem dropIndent_skip (m n : Nat) (l : List Char) :
    dropIndent (m + n) (List.replicate m ' ' ++ l) = dropIndent n l := by
  induction m with
  | zero => simp
  | succ k ih =>
      rw [show k + 1 + n = (k + n) + 1 by omega]
      simp [List.replicate, dropIndent, ih]

theorem parseAttrLine_print (key : String) (v : List Char) (hkey : plainName key = true) :
    parseAttrLine key (ind8 ++ key.toList ++ ':' :: ' ' :: v) = some v := by
  unfold parseAttrLine
  rw [show ind8 ++ key.toList ++ ':' :: ' ' :: v =
      List.replicate 8 ' ' ++ (key.toList ++ ':' :: (' ' :: v)) by simp [ind8_eq]]
  rw [dropIndent_exact]
  simp only [Option.bind_eq_bind, Option.some_bind]
  rw [splitAtColon_inv key.toList (' ' :: v)
      (fun hmem => ((plainName_parts key hkey).2 ':' hmem).1 rfl)]
  simp

theorem parseAttrLine_wrongkey (key key2 : String) (v : List Char)
    (hkey2 : plainName key2 = true) (hne : ¬ key2.toList = key.toList) :
    parseAttrLine key (ind8 ++ key2.toList ++ ':' :: ' ' :: v) = none := by
  unfold parseAttrLine
  rw [show ind8 ++ key2.toList ++ ':' :: ' ' :: v =
      List.replicate 8 ' ' ++ (key2.toList ++ ':' :: (' ' :: v)) by simp [ind8_eq]]
  rw [dropIndent_exact]
  simp only [Option.bind_eq_bind, Option.some_bind]
  rw [splitAtColon_inv key2.toList (' ' :: v)
      (fun hmem => ((plainName_parts key2 hkey2).2 ':' hmem).1 rfl)]
  have hne' : ¬ key2.data = key.data := hne
  simp [hne']

theorem parseAttrLine_entryheader (key nm : String) (hnm : plainName nm = true) :
    parseAttrLine key (ind4 ++ nm.toList ++ [':']) = none := by
  obtain ⟨⟨c, cs, hcl, hcsp⟩, _⟩ := plainName_parts nm hnm
  unfold parseAttrLine
  rw [show ind4 ++ nm.toList ++ [':'] =
      List.replicate 4 ' ' ++ (nm.toList ++ [':']) by simp [ind4_eq]]
  rw [show (8 : Nat) = 4 + 4 by rfl, dropIndent_skip]
  rw [hcl]
  rw [show (c :: cs) ++ [':'] = c :: (cs ++ [':']) by simp]
  rw [dropIndent_nonspace 3 c _ hcsp]
  rfl

theorem parseAttrLine_nonspace (key : String) (c : Char) (l : List Char)
    (hc : c ≠ ' ') : parseAttrLine key (c :: l) = none := by
  unfold parseAttrLine
  rw [dropIndent_nonspace 7 c l hc]
  rfl

theorem parseEntryHeader_nonspace (c : Char) (l : List Char) (hc : c ≠ ' ') :
    parseEntryHeader (c :: l) = none := by
  unfold parseEntryHeader
  rw [dropIndent_nonspace 3 c l hc]
  rfl

theorem parseEntryHeader_indented (l : List Char) :
    parseEntryHeader (ind8 ++ l) = none := by
  unfold parseEntryHeader
  rw [show ind8 ++ l = List.replicate 4 ' ' ++ (List.replicate 4 ' ' ++ l) by
      simp [ind8_eq, ind4_eq, ← List.replicate_add]]
  rw [show (4 : Nat) = 4 + 0 by rfl, dropIndent_skip]
  simp [dropIndent, headName, List.replicate]

theorem parseDocHeader_print (i : String) (hi : plainName i = true) :
    parseDocHeader (i.toList ++ [':']) = some i := by
  obtain ⟨⟨c, cs, hcl, hcsp⟩, hall⟩ := plainName_parts i hi
  unfold parseDocHeader
  rw [hcl]
  rw [show (c :: cs) ++ [':'] = c :: (cs ++ [':']) by simp]
  rw [headName_cons c (cs ++ [':']) hcsp]
  simp only [Option.bind_eq_bind, Option.some_bind]
  rw [show c :: (cs ++ [':']) = (c :: cs) ++ ':' :: [] by simp]
  rw [splitAtColon_inv (c :: cs) []
      (by rw [← hcl]; intro hmem; exact (hall ':' hmem).1 rfl)]
  rw [← hcl]
  rfl

theorem digitChar_toNat (k : Nat) (h : k < 10) : (digitChar k).toNat = 48 + k := by
  interval_cases k <;> rfl

theorem isDigitC_digitChar (k : Nat) (h : k < 10) : isDigitC (digitChar k) = true := by
  interval_cases k <;> rfl

theorem natChars_all_digits : ∀ (fuel n : Nat), n < fuel →
    ∀ c ∈ natChars fuel n, isDigitC c = true := by
  intro fuel
  induction fuel with
  | zero => intro n h; omega
  | succ f ih =>
      intro n h c hc
      by_cases h10 : n < 10
      · simp only [natChars, if_pos h10, List.mem_singleton] at hc
        subst hc
        exact isDigitC_digitChar n h10
      · simp only [natChars, if_neg h10, List.mem_append, List.mem_singleton] at hc
        rcases hc with hc | hc
        · exact ih (n / 10) (by omega) c hc
        · subst hc
          exact isDigitC_digitChar (n % 10) (by omega)

theorem digitsToNat_append (ds : List Char) (d : Char) :
    digitsToNat (ds ++ [d]) = 10 * digitsToNat ds + (d.toNat - 48) := by
  simp [digitsToNat, List.foldl_append]
  omega

theorem digitsToNat_natChars : ∀ (fuel n : Nat), n < fuel →
    digitsToNat (natChars fuel n) = n := by
  intro fuel
  induction fuel with
  | zero => intro n h; omega
  | succ f ih =>
      intro n h
      by_cases h10 : n < 10
      · simp only [natChars, if_pos h10]
        simp [digitsToNat, digitChar_toNat n h10]
      · simp only [natChars, if_neg h10]
        rw [digitsToNat_append, ih (n / 10) (by omega), digitChar_toNat (n % 10) (by omega)]
        omega

theorem printNatC_digits (n : Nat) : ∀ c ∈ printNatC n, isDigitC c = true :=
  natChars_all_digits (n + 1) n (Nat.lt_succ_self n)

theorem printNatC_nonempty (n : Nat) : printNatC n ≠ [] := by
  unfold printNatC natChars
  by_cases h : n < 10 <;> simp [h]

theorem takeDigits_split (ds rest : List Char) (hds : ∀ c ∈ ds, isDigitC c = true)
    (hrest : ∀ c, rest.head? = some c → isDigitC c = false) :
    takeDigits (ds ++ rest) = (ds, rest) := by
  induction ds with
  | nil =>
      cases rest with
      | nil => rfl
      | cons c cs => simp [takeDigits, hrest c rfl]
  | cons d ds ih =>
      have hd := hds d (by simp)
      simp [takeDigits, hd, ih (fun c hc => hds c (by simp [hc]))]

theorem parseNat_print (n : Nat) (rest : List Char)
    (hrest : ∀ c, rest.head? = some c → isDigitC c = false) :
    parseNat (printNatC n ++ rest) = some (n, rest) := by
  simp only [parseNat, takeDigits_split (printNatC n) rest (printNatC_digits n) hrest]
  simp [List.isEmpty_iff, printNatC_nonempty n,
        show digitsToNat (printNatC n) = n from
          digitsToNat_natChars (n + 1) n (Nat.lt_succ_self n)]

theorem breakAtQuote_inv (s rest : List Char) (hs : ∀ c ∈ s, c ≠ '"') :
    breakAtQuote (s ++ '"' :: rest) = some (s, rest) := by
  induction s with
  | nil => simp [breakAtQuote]
  | cons c cs ih =>
      have hc : c ≠ '"' := hs c (by simp)
      simp [breakAtQuote, hc, ih (fun c hc => hs c (by simp [hc]))]

theorem plainValue_no_quote (s : String) (hs : plainValue s = true) :
    ∀ c ∈ s.toList, c ≠ '"' := by
  intro c hc
  have h := (List.all_eq_true.mp hs) c hc
  simp only [Bool.and_eq_true, decide_eq_true_eq] at h
  exact h.1

theorem plainValue_no_newline (s : String) (hs : plainValue s = true) :
    ∀ c ∈ s.toList, c ≠ '\n' := by
  intro c hc
  have h := (List.all_eq_true.mp hs) c hc
  simp only [Bool.and_eq_true, decide_eq_true_eq] at h
  exact h.2

theorem parseQuoted_print (s : String) (rest : List Char) (hs : plainValue s = true) :
    parseQuoted (quoteStr s ++ rest) = some (s, rest) := by
  have h1 : quoteStr s ++ rest = '"' :: (s.toList ++ '"' :: rest) := by
    simp [quoteStr]
  rw [h1]
  simp only [parseQuoted, if_pos rfl]
  rw [breakAtQuote_inv s.toList rest (plainValue_no_quote s hs)]
  rfl

theorem parsePair_print (r : Nat × Nat) (rest : List Char) :
    parsePair (printPair r ++ rest) = some (r, rest) := by
  obtain ⟨a, b⟩ := r
  have h1 : printPair (a, b) ++ rest =
      '[' :: (printNatC a ++ ',' :: (printNatC b ++ ']' :: rest)) := by
    simp [printPair]
  rw [h1]
  have hd1 : ∀ c : Char, (',' :: (printNatC b ++ ']' :: rest)).head? = some c →
      isDigitC c = false := by intro c hc; simp at hc; subst hc; rfl
  have hd2 : ∀ c : Char, (']' :: rest).head? = some c → isDigitC c = false := by
    intro c hc; simp at hc; subst hc; rfl
  simp [parsePair, expectChar, parseNat_print a _ hd1, parseNat_print b _ hd2]

theorem parseElem_print (p : Nat × String) (rest : List Char)
    (hp : plainValue p.2 = true) :
    parseElem (printElem p ++ rest) = some (p, rest) := by
  obtain ⟨a, s⟩ := p
  have h1 : printElem (a, s) ++ rest =
      '[' :: (printNatC a ++ ',' :: (quoteStr s ++ ']' :: rest)) := by
    simp [printElem]
  rw [h1]
  have hd1 : ∀ c : Char, (',' :: (quoteStr s ++ ']' :: rest)).head? = some c →
      isDigitC c = false := by intro c hc; simp at hc; subst hc; rfl
  have h2 : quoteStr s ++ ']' :: rest = quoteStr s ++ (']' :: rest) := rfl
  simp [parseElem, expectChar, parseNat_print a _ hd1,
        parseQuoted_print s (']' :: rest) hp]

theorem parseSepBy_inv {α : Type} (item : List Char → Option (α × List Char))
    (pr : α → List Char) :
    ∀ (items : List α) (fuel : Nat) (rest : List Char),
    items.length ≤ fuel → items ≠ [] →
    (∀ a ∈ items, ∀ r, item (pr a ++ r) = some (a, r)) →
    (∀ c, rest.head? = some c → c ≠ ',') →
    parseSepBy item fuel (joinComma (items.map pr) ++ rest) = some (items, rest) := by
  intro items
  induction items with
  | nil => intro fuel rest _ hne _ _; exact absurd rfl hne
  | cons a as ih =>
      intro fuel rest hf _ hitem hrest
      cases fuel with
      | zero => simp at hf
      | succ f =>
          cases as with
          | nil =>
              simp only [List.map_cons, List.map_nil, joinComma]
              simp only [parseSepBy]
              rw [hitem a (by simp) rest]
              cases rest with
              | nil => rfl
              | cons c cs =>
                  have hc := hrest c rfl
                  simp [hc]
          | cons b bs =>
              simp only [List.map_cons, joinComma]
              simp only [parseSepBy]
              rw [show (pr a ++ ',' :: joinComma (pr b :: List.map pr bs)) ++ rest =
                    pr a ++ (',' :: (joinComma (List.map pr (b :: bs)) ++ rest)) by
                  simp]
              rw [hitem a (by simp) _]
              simp only [if_pos rfl]
              rw [ih f rest (by simp at hf ⊢; omega) (by simp)
                  (fun x hx r => hitem x (by simp [hx]) r) hrest]
              simp

theorem joinComma_length_ge {α : Type} (pr : α → List Char) (items : List α)
    (h : ∀ a ∈ items, pr a ≠ []) :
    items.length ≤ (joinComma (items.map pr)).length := by
  induction items with
  | nil => simp [joinComma]
  | cons a as ih =>
      cases as with
      | nil =>
          have h2 := List.length_pos.mpr (h a (by simp))
          simpa [joinComma] using h2
      | cons b bs =>
          have h1 := ih (fun x hx => h x (by simp [hx]))
          simp only [List.map_cons, joinComma, List.length_append, List.length_cons] at h1 ⊢
          have h2 := List.length_pos.mpr (h a (by simp))
          omega

theorem parseFlowList_print {α : Type} (item : List Char → Option (α × List Char))
    (pr : α → List Char) (items : List α) (rest : List Char)
    (hitem : ∀ a ∈ items, ∀ r, item (pr a ++ r) = some (a, r))
    (hne : ∀ a ∈ items, pr a ≠ [])
    (hhead : ∀ a ∈ items, ∀ c, (pr a).head? = some c → c ≠ ']' ∧ c ≠ ',') :
    parseFlowList item (('[' :: joinComma (items.map pr) ++ [']']) ++ rest) =
      some (items, rest) := by
  cases items with
  | nil => simp [joinComma, parseFlowList]
  | cons a as =>
      have hpra := hne a (by simp)
      have hjoin : joinComma (List.map pr (a :: as)) ++ (']' :: rest) =
          pr a ++ ((joinComma (List.map pr (a :: as))).drop (pr a).length ++ ']' :: rest) := by
        cases as with
        | nil => simp [joinComma]
        | cons b bs => simp [joinComma]
      obtain ⟨c0, pr', hpr⟩ : ∃ c0 pr', pr a = c0 :: pr' := by
        cases hh : pr a with
        | nil => exact absurd hh hpra
        | cons c0 pr' => exact ⟨c0, pr', rfl⟩
      have hc0 := hhead a (by simp) c0 (by simp [hpr])
      have hhead2 : ∃ t, joinComma (List.map pr (a :: as)) ++ ']' :: rest = c0 :: t := by
        cases as with
        | nil => exact ⟨pr' ++ ']' :: rest, by simp [joinComma, hpr]⟩
        | cons b bs => exact ⟨pr' ++ ',' :: joinComma (List.map pr (b :: bs)) ++ ']' :: rest,
            by simp [joinComma, hpr]⟩
      obtain ⟨t, ht⟩ := hhead2
      simp only [List.append_assoc, List.singleton_append, List.cons_append, List.nil_append]
      rw [ht]
      simp only [parseFlowList]
      simp only [eq_self_iff_true, if_true]
      rw [if_neg hc0.1]
      rw [← ht]
      have hfuel : (a :: as).length ≤
          (joinComma (List.map pr (a :: as)) ++ ']' :: rest).length + 1 := by
        have h3 := joinComma_length_ge pr (a :: as) hne
        simp only [List.length_append, List.length_cons] at *
        omega
      rw [parseSepBy_inv item pr (a :: as)
          ((joinComma (List.map pr (a :: as)) ++ ']' :: rest).length + 1) (']' :: rest)
          hfuel (by simp) hitem (by intro c hc; simp at hc; subst hc; decide)]
      simp

theorem parseLayerType_tname (lt : LayerType) :
    parseLayerType lt.tname.toList = some lt := by
  cases lt <;> rfl

theorem printStrList_ne_string (vs : List String) :
    ¬ printStrList vs = "string".toList := by
  intro h
  have h2 := congrArg List.head? h
  simp [printStrList] at h2

theorem parseDataDesc_enum (vs : List String) (h : vs.all plainValue = true) :
    parseDataDesc (dataRepr (.enum vs)) = some (.enum vs) := by
  have h1 : dataRepr (.enum vs) = printStrList vs := rfl
  rw [h1]
  unfold parseDataDesc
  rw [if_neg (printStrList_ne_string vs)]
  rw [show printStrList vs = ('[' :: joinComma (vs.map quoteStr) ++ [']']) ++ [] by
      simp [printStrList]]
  rw [parseFlowList_print parseQuoted quoteStr vs []
      (fun a ha r => parseQuoted_print a r ((List.all_eq_true.mp h) a ha))
      (fun a _ => by simp [quoteStr])
      (fun a _ c hc => by simp [quoteStr] at hc; subst hc; decide)]

theorem parseValue_print (v : LayerData) (hwf : wfLayerData v = true) :
    parseValue v.typeOf (yamlValue v) = some v := by
  cases v with
  | characters t => rfl
  | span ss =>
      simp only [LayerData.typeOf, parseValue, yamlValue]
      rw [show printSpanList ss = ('[' :: joinComma (ss.map printPair) ++ [']']) ++ [] by
          simp [printSpanList]]
      rw [parseFlowList_print parsePair printPair ss []
          (fun a _ r => parsePair_print a r)
          (fun a _ => by simp [printPair])
          (fun a _ c hc => by simp [printPair] at hc; subst hc; decide)]
  | seq vs =>
      simp only [LayerData.typeOf, parseValue, yamlValue]
      rw [show printStrList vs = ('[' :: joinComma (vs.map quoteStr) ++ [']']) ++ [] by
          simp [printStrList]]
      rw [parseFlowList_print parseQuoted quoteStr vs []
          (fun a ha r => parseQuoted_print a r ((List.all_eq_true.mp hwf) a ha))
          (fun a _ => by simp [quoteStr])
          (fun a _ c hc => by simp [quoteStr] at hc; subst hc; decide)]
  | element es =>
      simp only [LayerData.typeOf, parseValue, yamlValue]
      rw [show printElemList es = ('[' :: joinComma (es.map printElem) ++ [']']) ++ [] by
          simp [printElemList]]
      rw [parseFlowList_print parseElem printElem es []
          (fun a ha r => parseElem_print a r (by
            have := (List.all_eq_true.mp hwf) a ha
            simpa using this))
          (fun a _ => by simp [printElem])
          (fun a _ c hc => by simp [printElem] at hc; subst hc; decide)]

theorem parseJsonValue_print (v : LayerData) (rest : List Char)
    (hwf : wfLayerData v = true) :
    parseJsonValue v.typeOf (jsonValue v ++ rest) = some (v, rest) := by
  cases v with
  | characters t =>
      simp only [LayerData.typeOf, parseJsonValue, jsonValue]
      rw [parseQuoted_print t rest hwf]
      rfl
  | span ss =>
      simp only [LayerData.typeOf, parseJsonValue, jsonValue]
      rw [show printSpanList ss ++ rest =
          ('[' :: joinComma (ss.map printPair) ++ [']']) ++ rest by simp [printSpanList]]
      rw [parseFlowList_print parsePair printPair ss rest
          (fun a _ r => parsePair_print a r)
          (fun a _ => by simp [printPair])
          (fun a _ c hc => by simp [printPair] at hc; subst hc; decide)]
      rfl
  | seq vs =>
      simp only [LayerData.typeOf, parseJsonValue, jsonValue]
      rw [show printStrList vs ++ rest =
          ('[' :: joinComma (vs.map quoteStr) ++ [']']) ++ rest by simp [printStrList]]
      rw [parseFlowList_print parseQuoted quoteStr vs rest
          (fun a ha r => parseQuoted_print a r ((List.all_eq_true.mp hwf) a ha))
          (fun a _ => by simp [quoteStr])
          (fun a _ c hc => by simp [quoteStr] at hc; subst hc; decide)]
      rfl
  | element es =>
      simp only [LayerData.typeOf, parseJsonValue, jsonValue]
      rw [show printElemList es ++ rest =
          ('[' :: joinComma (es.map printElem) ++ [']']) ++ rest by simp [printElemList]]
      rw [parseFlowList_print parseElem printElem es rest
          (fun a ha r => parseElem_print a r (by
            have := (List.all_eq_true.mp hwf) a ha
            simpa using this))
          (fun a _ => by simp [printElem])
          (fun a _ c hc => by simp [printElem] at hc; subst hc; decide)]
      rfl

theorem stringMk_toList (s : String) : String.mk s.toList = s := rfl

theorem parseOptAttr_hit (key : String) (v : List Char) (lines : List (List Char))
    (hkey : plainName key = true) :
    parseOptAttr key ((ind8 ++ key.toList ++ ':' :: ' ' :: v) :: lines) =
      (some v, lines) := by
  simp only [parseOptAttr, parseAttrLine_print key v hkey]

theorem parseOptAttr_miss (key : String) (lines : List (List Char))
    (h : match lines with
         | [] => True
         | l :: _ => parseAttrLine key l = none) :
    parseOptAttr key lines = (none, lines) := by
  cases lines with
  | nil => rfl
  | cons l ls =>
      simp only [parseOptAttr, show parseAttrLine key l = none from h]

theorem parseAttrLine_typeline (v : List Char) :
    parseAttrLine "type" (ind8 ++ "type: ".toList ++ v) = some v :=
  parseAttrLine_print "type" v (by rfl)

theorem parseOptAttr_baseline (v : List Char) (lines : List (List Char)) :
    parseOptAttr "base" ((ind8 ++ "base: ".toList ++ v) :: lines) = (some v, lines) :=
  parseOptAttr_hit "base" v lines (by rfl)

theorem parseOptAttr_dataline (v : List Char) (lines : List (List Char)) :
    parseOptAttr "data" ((ind8 ++ "data: ".toList ++ v) :: lines) = (some v, lines) :=
  parseOptAttr_hit "data" v lines (by rfl)

theorem parseOptAttr_base_on_dataline (v : List Char) (lines : List (List Char)) :
    parseOptAttr "base" ((ind8 ++ "data: ".toList ++ v) :: lines) =
      (none, (ind8 ++ "data: ".toList ++ v) :: lines) := by
  simp only [parseOptAttr, show parseAttrLine "base" (ind8 ++ "data: ".toList ++ v) = none from
      parseAttrLine_wrongkey "base" "data" v (by rfl) (by decide)]

/-- The first line after a fully printed meta prefix is never an
8-indented attribute line. -/
theorem metaFollow_attr_none (key : String) (ms : List (String × LayerDesc))
    (rest : List (List Char)) (hms : ∀ p ∈ ms, plainName p.1 = true)
    (hrest : rest = [] ∨ ∃ c t l, rest = (c :: t) :: l ∧ c ≠ ' ') :
    match ms.flatMap yamlMetaEntry ++ rest with
    | [] => True
    | l :: _ => parseAttrLine key l = none := by
  cases ms with
  | nil =>
      rcases hrest with h | ⟨c, t, l, hr, hc⟩
      · subst h; simp
      · subst hr
        simpa using parseAttrLine_nonspace key c t hc
  | cons m ms2 =>
      have h1 : (m :: ms2).flatMap yamlMetaEntry ++ rest =
          (ind4 ++ m.1.toList ++ [':']) ::
            ((yamlMetaEntry m).tail ++ (ms2.flatMap yamlMetaEntry ++ rest)) := by
        simp [yamlMetaEntry]
      rw [h1]
      simpa using parseAttrLine_entryheader key m.1 (hms m (by simp))

/-- The printed `_meta` entries followed by non-indented lines parse
back exactly. -/
theorem parseMetaEntries_inv (ms : List (String × LayerDesc)) :
    ∀ (fuel : Nat) (rest : List (List Char)),
    ms.length < fuel →
    (∀ p ∈ ms, plainName p.1 = true ∧ wfDesc p.2 = true) →
    (rest = [] ∨ ∃ c t l, rest = (c :: t) :: l ∧ c ≠ ' ') →
    parseMetaEntries fuel (ms.flatMap yamlMetaEntry ++ rest) = some (ms, rest) := by
  induction ms with
  | nil =>
      intro fuel rest hf _ hrest
      cases fuel with
      | zero => omega
      | succ f =>
          rcases hrest with h | ⟨c, t, l, hr, hc⟩
          · subst h; rfl
          · subst hr
            simp only [List.flatMap_nil, List.nil_append, parseMetaEntries]
            rw [parseEntryHeader_nonspace c t hc]
  | cons m ms2 ih =>
      intro fuel rest hf hwf hrest
      cases fuel with
      | zero => omega
      | succ f =>
          obtain ⟨hm1, hm2⟩ := hwf m (by simp)
          obtain ⟨nm, mdesc⟩ := m
          obtain ⟨lt, ob, od⟩ := mdesc
          simp only at hm1 hm2
          unfold wfDesc at hm2
          simp only [Bool.and_eq_true] at hm2
          have hrec : parseMetaEntries f (ms2.flatMap yamlMetaEntry ++ rest) =
              some (ms2, rest) := by
            apply ih f rest (by simp at hf; omega)
              (fun p hp => hwf p (by simp [hp])) hrest
          have hfollowd := metaFollow_attr_none "data" ms2 rest
            (fun p hp => (hwf p (by simp [hp])).1) hrest
          have hfollowb := metaFollow_attr_none "base" ms2 rest
            (fun p hp => (hwf p (by simp [hp])).1) hrest
          have hmissd : parseOptAttr "data" (ms2.flatMap yamlMetaEntry ++ rest) =
              (none, ms2.flatMap yamlMetaEntry ++ rest) :=
            parseOptAttr_miss "data" _ hfollowd
          have hmissb : parseOptAttr "base" (ms2.flatMap yamlMetaEntry ++ rest) =
              (none, ms2.flatMap yamlMetaEntry ++ rest) :=
            parseOptAttr_miss "base" _ hfollowb
          cases ob with
          | some b =>
              cases od with
              | some dd =>
                  have hdd : parseDataDesc (dataRepr dd) = some dd := by
                    cases dd with
                    | string => rfl
                    | enum vs => exact parseDataDesc_enum vs (by simpa using hm2.2)
                  have hflat : ((nm, ⟨lt, some b, some dd⟩) :: ms2).flatMap
                        yamlMetaEntry ++ rest =
                      (ind4 ++ nm.toList ++ [':']) ::
                      (ind8 ++ "type: ".toList ++ lt.tname.toList) ::
                      (ind8 ++ "base: ".toList ++ b.toList) ::
                      (ind8 ++ "data: ".toList ++ dataRepr dd) ::
                      (ms2.flatMap yamlMetaEntry ++ rest) := by
                    simp [yamlMetaEntry]
                  rw [hflat]
                  simp only [parseMetaEntries, parseEntryHeader_print nm hm1,
                    parseAttrLine_typeline, parseLayerType_tname,
                    parseOptAttr_baseline, parseOptAttr_dataline, hdd, hrec,
                    Option.map_some', stringMk_toList]
              | none =>
                  have hflat : ((nm, ⟨lt, some b, none⟩) :: ms2).flatMap
                        yamlMetaEntry ++ rest =
                      (ind4 ++ nm.toList ++ [':']) ::
                      (ind8 ++ "type: ".toList ++ lt.tname.toList) ::
                      (ind8 ++ "base: ".toList ++ b.toList) ::
                      (ms2.flatMap yamlMetaEntry ++ rest) := by
                    simp [yamlMetaEntry]
                  rw [hflat]
                  simp only [parseMetaEntries, parseEntryHeader_print nm hm1,
                    parseAttrLine_typeline, parseLayerType_tname,
                    parseOptAttr_baseline, hmissd, hrec,
                    Option.map_some', Option.map_none', stringMk_toList]
          | none =>
              cases od with
              | some dd =>
                  have hdd : parseDataDesc (dataRepr dd) = some dd := by
                    cases dd with
                    | string => rfl
                    | enum vs => exact parseDataDesc_enum vs (by simpa using hm2.2)
                  have hflat : ((nm, ⟨lt, none, some dd⟩) :: ms2).flatMap
                        yamlMetaEntry ++ rest =
                      (ind4 ++ nm.toList ++ [':']) ::
                      (ind8 ++ "type: ".toList ++ lt.tname.toList) ::
                      (ind8 ++ "data: ".toList ++ dataRepr dd) ::
                      (ms2.flatMap yamlMetaEntry ++ rest) := by
                    simp [yamlMetaEntry]
                  rw [hflat]
                  simp only [parseMetaEntries, parseEntryHeader_print nm hm1,
                    parseAttrLine_typeline, parseLayerType_tname,
                    parseOptAttr_base_on_dataline, parseOptAttr_dataline, hdd, hrec,
                    Option.map_some', Option.map_none', stringMk_toList]
              | none =>
                  have hflat : ((nm, ⟨lt, none, none⟩) :: ms2).flatMap
                        yamlMetaEntry ++ rest =
                      (ind4 ++ nm.toList ++ [':']) ::
                      (ind8 ++ "type: ".toList ++ lt.tname.toList) ::
                      (ms2.flatMap yamlMetaEntry ++ rest) := by
                    simp [yamlMetaEntry]
                  rw [hflat]
                  simp only [parseMetaEntries, parseEntryHeader_print nm hm1,
                    parseAttrLine_typeline, parseLayerType_tname,
                    hmissb, hmissd, hrec, Option.map_none', stringMk_toList]

theorem mem_joinComma (c : Char) : ∀ (xs : List (List Char)),
    c ∈ joinComma xs → c = ',' ∨ ∃ x ∈ xs, c ∈ x := by
  intro xs
  induction xs with
  | nil => intro h; simp [joinComma] at h
  | cons x xs2 ih =>
      cases xs2 with
      | nil =>
          intro h
          simp only [joinComma] at h
          exact Or.inr ⟨x, by simp, h⟩
      | cons y rest =>
          intro h
          simp only [joinComma, List.mem_append, List.mem_cons] at h
          rcases h with h | h | h
          · exact Or.inr ⟨x, by simp, h⟩
          · exact Or.inl h
          · rcases ih h with h2 | ⟨z, hz, hc⟩
            · exact Or.inl h2
            · exact Or.inr ⟨z, by simp at hz ⊢; tauto, hc⟩

theorem printNatC_no_newline (n : Nat) : '\n' ∉ printNatC n := by
  intro h
  have := printNatC_digits n '\n' h
  simp [isDigitC] at this

theorem quoteStr_no_newline (s : String) (h : plainValue s = true) :
    '\n' ∉ quoteStr s := by
  intro hm
  unfold quoteStr at hm
  rcases List.mem_cons.mp hm with hm | hm
  · exact absurd hm (by decide)
  rcases List.mem_append.mp hm with hm | hm
  · exact plainValue_no_newline s h '\n' hm rfl
  · exact absurd (List.mem_singleton.mp hm) (by decide)

theorem printPair_no_newline (r : Nat × Nat) : '\n' ∉ printPair r := by
  intro hm
  unfold printPair at hm
  rcases List.mem_cons.mp hm with hm | hm
  · exact absurd hm (by decide)
  rcases List.mem_append.mp hm with hm | hm
  · rcases List.mem_append.mp hm with hm | hm
    · exact printNatC_no_newline r.1 hm
    · rcases List.mem_cons.mp hm with hm | hm
      · exact absurd hm (by decide)
      · exact printNatC_no_newline r.2 hm
  · exact absurd (List.mem_singleton.mp hm) (by decide)

theorem printElem_no_newline (p : Nat × String) (h : plainValue p.2 = true) :
    '\n' ∉ printElem p := by
  intro hm
  unfold printElem at hm
  rcases List.mem_cons.mp hm with hm | hm
  · exact absurd hm (by decide)
  rcases List.mem_append.mp hm with hm | hm
  · rcases List.mem_append.mp hm with hm | hm
    · exact printNatC_no_newline p.1 hm
    · rcases List.mem_cons.mp hm with hm | hm
      · exact absurd hm (by decide)
      · exact quoteStr_no_newline p.2 h hm
  · exact absurd (List.mem_singleton.mp hm) (by decide)

theorem flowList_no_newline {α : Type} (pr : α → List Char) (xs : List α)
    (h : ∀ x ∈ xs, '\n' ∉ pr x) :
    '\n' ∉ '[' :: joinComma (xs.map pr) ++ [']'] := by
  intro hm
  rcases List.mem_cons.mp hm with hm | hm
  · exact absurd hm (by decide)
  rcases List.mem_append.mp hm with hm | hm
  · rcases mem_joinComma '\n' (xs.map pr) hm with h2 | ⟨z, hz, hc⟩
    · exact absurd h2 (by decide)
    · obtain ⟨a, ha, rfl⟩ := List.mem_map.mp hz
      exact h a ha hc
  · exact absurd (List.mem_singleton.mp hm) (by decide)

theorem yamlValue_no_newline (v : LayerData) (hwf : wfLayerData v = true) :
    '\n' ∉ yamlValue v := by
  cases v with
  | characters t =>
      intro hm
      exact plainValue_no_newline t hwf '\n' hm rfl
  | span ss =>
      simpa [yamlValue, printSpanList] using
        flowList_no_newline printPair ss (fun x _ => printPair_no_newline x)
  | seq vs =>
      simpa [yamlValue, printStrList] using
        flowList_no_newline quoteStr vs
          (fun x hx => quoteStr_no_newline x ((List.all_eq_true.mp hwf) x hx))
  | element es =>
      simpa [yamlValue, printElemList] using
        flowList_no_newline printElem es
          (fun x hx => printElem_no_newline x (by
            have := (List.all_eq_true.mp hwf) x hx
            simpa using this))

theorem plainName_no_newline (s : String) (h : plainName s = true) :
    '\n' ∉ s.toList := by
  intro hm
  exact ((plainName_parts s h).2 '\n' hm).2.1 rfl

theorem tname_no_newline (lt : LayerType) : '\n' ∉ lt.tname.toList := by
  cases lt <;> decide

theorem dataRepr_no_newline (dd : DataDesc)
    (h : (match dd with
          | DataDesc.enum vs => vs.all plainValue
          | _ => true) = true) :
    '\n' ∉ dataRepr dd := by
  cases dd with
  | string => decide
  | enum vs =>
      simpa [dataRepr, printStrList] using
        flowList_no_newline quoteStr vs
          (fun x hx => quoteStr_no_newline x ((List.all_eq_true.mp h) x hx))

theorem ind4_no_newline : '\n' ∉ ind4 := by decide

theorem ind8_no_newline : '\n' ∉ ind8 := by decide

theorem attrline_no_newline (pre key v : List Char)
    (hpre : '\n' ∉ pre) (hkey : '\n' ∉ key) (hv : '\n' ∉ v) :
    '\n' ∉ pre ++ key ++ ':' :: ' ' :: v := by
  intro hm
  rcases List.mem_append.mp hm with hm | hm
  · rcases List.mem_append.mp hm with hm | hm
    · exact hpre hm
    · exact hkey hm
  · rcases List.mem_cons.mp hm with hm | hm
    · exact absurd hm (by decide)
    · rcases List.mem_cons.mp hm with hm | hm
      · exact absurd hm (by decide)
      · exact hv hm

theorem header_no_newline (pre nm : List Char)
    (hpre : '\n' ∉ pre) (hnm : '\n' ∉ nm) :
    '\n' ∉ pre ++ nm ++ [':'] := by
  intro hm
  rcases List.mem_append.mp hm with hm | hm
  · rcases List.mem_append.mp hm with hm | hm
    · exact hpre hm
    · exact hnm hm
  · exact absurd (List.mem_singleton.mp hm) (by decide)

theorem yamlMetaEntry_no_newline (p : String × LayerDesc)
    (hn : plainName p.1 = true) (hd : wfDesc p.2 = true) :
    ∀ l ∈ yamlMetaEntry p, '\n' ∉ l := by
  unfold wfDesc at hd
  simp only [Bool.and_eq_true] at hd
  intro l hl
  simp only [yamlMetaEntry, List.mem_cons, List.mem_append] at hl
  rcases hl with hl | hl | hl
  · subst hl
    exact header_no_newline ind4 p.1.toList ind4_no_newline (plainName_no_newline p.1 hn)
  · subst hl
    intro hm
    rcases List.mem_append.mp hm with hm | hm
    · exact absurd hm (by decide)
    · exact tname_no_newline p.2.layer_type hm
  · rcases hl with hl | hl
    · revert hl
      cases hb : p.2.base with
      | none => intro hl; simp at hl
      | some b =>
          intro hl
          rw [List.mem_singleton.mp hl]
          have hb' : plainName b = true := by
            have := hd.1; rw [hb] at this; exact this
          intro hm
          rcases List.mem_append.mp hm with hm | hm
          · exact absurd hm (by decide)
          · exact plainName_no_newline b hb' hm
    · revert hl
      cases hdd : p.2.data with
      | none => intro hl; simp at hl
      | some dd =>
          cases dd with
          | string =>
              intro hl
              rw [List.mem_singleton.mp hl]
              intro hm
              rcases List.mem_append.mp hm with hm | hm
              · exact absurd hm (by decide)
              · exact absurd hm (by decide)
          | enum vs =>
              intro hl
              rw [List.mem_singleton.mp hl]
              have hvs : vs.all plainValue = true := by
                have := hd.2; rw [hdd] at this; exact this
              intro hm
              rcases List.mem_append.mp hm with hm | hm
              · exact absurd hm (by decide)
              · exact dataRepr_no_newline (DataDesc.enum vs) hvs hm

theorem sortByName_perm {α : Type} (l : List (String × α)) :
    (sortByName l).Perm l :=
  List.perm_insertionSort nameLe l

theorem yamlDocEntry_no_newline (meta : List (String × LayerDesc))
    (p : String × Document)
    (hn : plainName p.1 = true) (hd : wfDoc meta p.2 = true) :
    ∀ l ∈ yamlDocEntry p, '\n' ∉ l := by
  intro l hl
  simp only [yamlDocEntry, List.mem_cons] at hl
  rcases hl with hl | hl
  · subst hl
    intro hm
    rcases List.mem_append.mp hm with hm | hm
    · exact plainName_no_newline p.1 hn hm
    · exact absurd (List.mem_singleton.mp hm) (by decide)
  · obtain ⟨q, hq, rfl⟩ := List.mem_map.mp hl
    have hq2 : q ∈ p.2 := (sortByName_perm p.2).mem_iff.mp hq
    have hq3 := (List.all_eq_true.mp hd) q hq2
    simp only [Bool.and_eq_true] at hq3
    exact attrline_no_newline ind4 q.1.toList (yamlValue q.2)
      ind4_no_newline (plainName_no_newline q.1 hq3.1.1)
      (yamlValue_no_newline q.2 hq3.1.2)

theorem length_le_flatMap {α β : Type} (f : α → List β) (l : List α)
    (h : ∀ x ∈ l, f x ≠ []) : l.length ≤ (l.flatMap f).length := by
  induction l with
  | nil => simp
  | cons x xs ih =>
      simp only [List.flatMap_cons, List.length_append, List.length_cons]
      have h1 : 1 ≤ (f x).length := by
        have := h x (by simp)
        cases hfx : f x with
        | nil => exact absurd hfx this
        | cons a as => simp
      have h2 := ih (fun y hy => h y (by simp [hy]))
      omega

theorem listNodup_nodup : ∀ (xs : List String), listNodup xs = true → xs.Nodup := by
  intro xs
  induction xs with
  | nil => intro _; exact List.nodup_nil
  | cons x xs2 ih =>
      intro h
      simp only [listNodup, Bool.and_eq_true, Bool.not_eq_true] at h
      refine List.nodup_cons.mpr ⟨?_, ih h.2⟩
      intro hmem
      have hcs : containsStr xs2 x = true := by
        unfold containsStr
        exact List.any_eq_true.mpr ⟨x, hmem, by simp⟩
      rw [hcs] at h
      exact absurd h.1 (by simp)

theorem alookup_perm {α : Type} (nm : String) (l1 l2 : List (String × α))
    (hp : l1.Perm l2) (hnd : (l1.map Prod.fst).Nodup) :
    alookup nm l1 = alookup nm l2 := by
  induction hp with
  | nil => rfl
  | cons x h2 ih =>
      simp only [alookup]
      by_cases hx : x.1 = nm
      · simp [hx]
      · simp only [if_neg hx]
        apply ih
        simpa using (List.nodup_cons.mp (by simpa using hnd)).2
  | swap x y l =>
      have hxy : y.1 ≠ x.1 := by
        simp only [List.map_cons, List.nodup_cons, List.mem_cons] at hnd
        intro h
        exact hnd.1 (Or.inl h)
      simp only [alookup]
      by_cases hy : y.1 = nm
      · rw [if_pos hy, if_neg (fun hx => hxy (hy.trans hx.symm)), if_pos hy]
      · by_cases hx : x.1 = nm
        · rw [if_neg hy, if_pos hx, if_pos hx]
        · rw [if_neg hy, if_neg hx, if_neg hx, if_neg hy]
  | trans h1 h2 ih1 ih2 =>
      rw [ih1 hnd, ih2 (((h1.map Prod.fst).nodup_iff).mp hnd)]

theorem alookup_sortByName {α : Type} (nm : String) (l : List (String × α))
    (hnd : (l.map Prod.fst).Nodup) :
    alookup nm (sortByName l) = alookup nm l :=
  alookup_perm nm (sortByName l) l (sortByName_perm l)
    (((sortByName_perm l).map Prod.fst).nodup_iff.mpr hnd)

theorem parseLayerLine_print (meta : List (String × LayerDesc)) (nm : String)
    (v : LayerData) (desc : LayerDesc)
    (hnm : plainName nm = true) (hwf : wfLayerData v = true)
    (hlk : alookup nm meta = some desc) (hty : desc.layer_type = v.typeOf) :
    parseLayerLine meta (ind4 ++ nm.toList ++ ':' :: ' ' :: yamlValue v) =
      some (nm, v) := by
  obtain ⟨⟨c, cs, hcl, hcsp⟩, hall⟩ := plainName_parts nm hnm
  unfold parseLayerLine
  rw [show ind4 ++ nm.toList ++ ':' :: ' ' :: yamlValue v =
      List.replicate 4 ' ' ++ (nm.toList ++ ':' :: (' ' :: yamlValue v)) by
      simp [ind4_eq]]
  rw [dropIndent_exact]
  simp only [Option.bind_eq_bind, Option.some_bind]
  rw [hcl]
  rw [show (c :: cs) ++ ':' :: (' ' :: yamlValue v) =
      c :: (cs ++ ':' :: ' ' :: yamlValue v) by simp]
  rw [headName_cons c _ hcsp]
  simp only [Option.bind_eq_bind, Option.some_bind]
  rw [show c :: (cs ++ ':' :: ' ' :: yamlValue v) =
      (c :: cs) ++ ':' :: (' ' :: yamlValue v) by simp]
  rw [splitAtColon_inv (c :: cs) _
      (by rw [← hcl]; intro hmem; exact (hall ':' hmem).1 rfl)]
  rw [← hcl]
  simp only [stringMk_toList, hlk, hty, parseValue_print v hwf]
  rfl

theorem parseLayerLine_nonspace (meta : List (String × LayerDesc)) (c : Char)
    (l : List Char) (hc : c ≠ ' ') : parseLayerLine meta (c :: l) = none := by
  unfold parseLayerLine
  rw [dropIndent_nonspace 3 c l hc]
  rfl

theorem docsFollow_shape (docs : List (String × Document))
    (h : ∀ p ∈ docs, plainName p.1 = true) :
    docs.flatMap yamlDocEntry = [] ∨
      ∃ c t l, docs.flatMap yamlDocEntry = (c :: t) :: l ∧ c ≠ ' ' := by
  cases docs with
  | nil => exact Or.inl rfl
  | cons p ds =>
      obtain ⟨⟨c, cs, hcl, hcsp⟩, _⟩ := plainName_parts p.1 (h p (by simp))
      refine Or.inr ⟨c, cs ++ [':'],
        ((sortByName p.2).map
          (fun q => ind4 ++ q.1.toList ++ ':' :: ' ' :: yamlValue q.2)) ++
          ds.flatMap yamlDocEntry, ?_, hcsp⟩
      have hcl' : p.1.data = c :: cs := hcl
      simp [yamlDocEntry, hcl, hcl']

theorem parseDocLayers_inv (meta : List (String × LayerDesc)) (d : Document) :
    ∀ (fuel : Nat) (rest : List (List Char)),
    d.length < fuel →
    (∀ q ∈ d, plainName q.1 = true ∧ wfLayerData q.2 = true ∧
      ∃ desc, alookup q.1 meta = some desc ∧ desc.layer_type = q.2.typeOf) →
    (rest = [] ∨ ∃ c t l, rest = (c :: t) :: l ∧ c ≠ ' ') →
    parseDocLayers meta fuel
      (d.map (fun q => ind4 ++ q.1.toList ++ ':' :: ' ' :: yamlValue q.2) ++ rest) =
      some (d, rest) := by
  induction d with
  | nil =>
      intro fuel rest hf _ hrest
      cases fuel with
      | zero => omega
      | succ f =>
          rcases hrest with h | ⟨c, t, l, hr, hc⟩
          · subst h; rfl
          · subst hr
            simp only [List.map_nil, List.nil_append, parseDocLayers]
            rw [parseLayerLine_nonspace meta c t hc]
  | cons q d2 ih =>
      intro fuel rest hf hwf hrest
      cases fuel with
      | zero => omega
      | succ f =>
          obtain ⟨hq1, hq2, desc, hlk, hty⟩ := hwf q (by simp)
          have hrec := ih f rest (by simp at hf; omega)
            (fun p hp => hwf p (by simp [hp])) hrest
          simp only [List.map_cons, List.cons_append, List.append_eq, parseDocLayers,
            parseLayerLine_print meta q.1 q.2 desc hq1 hq2 hlk hty, hrec]

theorem parseDocEntries_inv (meta : List (String × LayerDesc))
    (docs : List (String × Document)) :
    ∀ (fuel : Nat),
    docs.length < fuel →
    (∀ p ∈ docs, plainName p.1 = true ∧ wfDoc meta p.2 = true) →
    parseDocEntries meta fuel (docs.flatMap yamlDocEntry) =
      some (docs.map (fun p => (p.1, sortByName p.2))) := by
  induction docs with
  | nil =>
      intro fuel hf _
      cases fuel with
      | zero => omega
      | succ f => rfl
  | cons p ds ih =>
      intro fuel hf hwf
      cases fuel with
      | zero => omega
      | succ f =>
          obtain ⟨hp1, hp2⟩ := hwf p (by simp)
          have hflat : ((p :: ds).flatMap yamlDocEntry) =
              (p.1.toList ++ [':']) ::
              ((sortByName p.2).map
                (fun q => ind4 ++ q.1.toList ++ ':' :: ' ' :: yamlValue q.2) ++
               ds.flatMap yamlDocEntry) := by
            simp [yamlDocEntry]
          have hfollow := docsFollow_shape ds (fun x hx => (hwf x (by simp [hx])).1)
          have hld : parseDocLayers meta
              (((sortByName p.2).map
                (fun q => ind4 ++ q.1.toList ++ ':' :: ' ' :: yamlValue q.2) ++
                ds.flatMap yamlDocEntry).length + 1)
              ((sortByName p.2).map
                (fun q => ind4 ++ q.1.toList ++ ':' :: ' ' :: yamlValue q.2) ++
                ds.flatMap yamlDocEntry) =
              some (sortByName p.2, ds.flatMap yamlDocEntry) := by
            apply parseDocLayers_inv meta (sortByName p.2) _ _
              (by simp only [List.length_append, List.length_map]; omega)
              ?_ hfollow
            intro q hq
            have hq2 : q ∈ p.2 := (sortByName_perm p.2).mem_iff.mp hq
            have hq3 := (List.all_eq_true.mp hp2) q hq2
            simp only [Bool.and_eq_true] at hq3
            refine ⟨hq3.1.1, hq3.1.2, ?_⟩
            have hq4 := hq3.2
            revert hq4
            cases hlk : alookup q.1 meta with
            | none => intro hq4; simp at hq4
            | some desc =>
                intro hq4
                refine ⟨desc, rfl, ?_⟩
                simpa using hq4
          rw [hflat]
          simp only [parseDocEntries, parseDocHeader_print p.1 hp1, hld,
            ih f (by simp at hf; omega) (fun x hx => hwf x (by simp [hx])),
            List.map_cons]

theorem wfDoc_sortMeta (meta : List (String × LayerDesc)) (d : Document)
    (hnd : (meta.map Prod.fst).Nodup) (h : wfDoc meta d = true) :
    wfDoc (sortByName meta) d = true := by
  unfold wfDoc at h ⊢
  rw [List.all_eq_true] at h ⊢
  intro q hq
  have h2 := h q hq
  rw [show alookup q.1 (sortByName meta) = alookup q.1 meta from
      alookup_sortByName q.1 meta hnd]
  exact h2

theorem read_yaml_roundtrip (c : Corpus) (h : wfCorpus c = true) :
    read_yaml_str c.to_yaml_str = some (sortCorpus c) := by
  unfold wfCorpus at h
  simp only [Bool.and_eq_true] at h
  obtain ⟨⟨hnd, hmeta⟩, hdocs⟩ := h
  have hmeta' : ∀ p ∈ c.meta, plainName p.1 = true ∧ wfDesc p.2 = true := by
    intro p hp
    have := (List.all_eq_true.mp hmeta) p hp
    simpa using this
  have hdocs' : ∀ p ∈ c.docs, plainName p.1 = true ∧ wfDoc c.meta p.2 = true := by
    intro p hp
    have := (List.all_eq_true.mp hdocs) p hp
    simpa using this
  have hsm : ∀ p ∈ sortByName c.meta, plainName p.1 = true ∧ wfDesc p.2 = true :=
    fun p hp => hmeta' p ((sortByName_perm c.meta).mem_iff.mp hp)
  have hnn : ∀ l ∈ ("_meta:".toList ::
      ((sortByName c.meta).flatMap yamlMetaEntry ++
        c.docs.flatMap yamlDocEntry)), '\n' ∉ l := by
    intro l hl
    rcases List.mem_cons.mp hl with hl | hl
    · subst hl; decide
    rcases List.mem_append.mp hl with hl | hl
    · obtain ⟨p, hp, hlp⟩ := List.mem_flatMap.mp hl
      exact yamlMetaEntry_no_newline p (hsm p hp).1 (hsm p hp).2 l hlp
    · obtain ⟨p, hp, hlp⟩ := List.mem_flatMap.mp hl
      exact yamlDocEntry_no_newline c.meta p (hdocs' p hp).1 (hdocs' p hp).2 l hlp
  have hlen1 : (sortByName c.meta).length ≤
      ((sortByName c.meta).flatMap yamlMetaEntry).length :=
    length_le_flatMap yamlMetaEntry _ (fun x _ => by simp [yamlMetaEntry])
  have hlen2 : c.docs.length ≤ (c.docs.flatMap yamlDocEntry).length :=
    length_le_flatMap yamlDocEntry _ (fun x _ => by simp [yamlDocEntry])
  have hfollow := docsFollow_shape c.docs (fun x hx => (hdocs' x hx).1)
  have hmetaInv : parseMetaEntries
      (((sortByName c.meta).flatMap yamlMetaEntry ++
        c.docs.flatMap yamlDocEntry).length + 1)
      ((sortByName c.meta).flatMap yamlMetaEntry ++ c.docs.flatMap yamlDocEntry) =
      some (sortByName c.meta, c.docs.flatMap yamlDocEntry) :=
    parseMetaEntries_inv (sortByName c.meta) _ _
      (by simp only [List.length_append]; omega) hsm hfollow
  have hdocInv : parseDocEntries (sortByName c.meta)
      ((c.docs.flatMap yamlDocEntry).length + 1)
      (c.docs.flatMap yamlDocEntry) =
      some (c.docs.map (fun p => (p.1, sortByName p.2))) :=
    parseDocEntries_inv (sortByName c.meta) c.docs _
      (by omega)
      (fun p hp => ⟨(hdocs' p hp).1,
        wfDoc_sortMeta c.meta p.2 (listNodup_nodup _ hnd)
          (hdocs' p hp).2⟩)
  unfold Corpus.to_yaml_str read_yaml_str
  simp only [List.cons_append]
  rw [show (String.mk (unlines ("_meta:".toList ::
        ((sortByName c.meta).flatMap yamlMetaEntry ++
          c.docs.flatMap yamlDocEntry)))).toList =
      unlines ("_meta:".toList ::
        ((sortByName c.meta).flatMap yamlMetaEntry ++
          c.docs.flatMap yamlDocEntry)) from rfl]
  rw [splitLines_unlines _ hnn]
  simp only [eq_self_iff_true, if_true, hmetaInv, hdocInv]
  rfl

theorem vEncAux_eq : ∀ (n : Nat), ∀ (f1 f2 : Nat), n < f1 → n < f2 →
    vEncAux f1 n = vEncAux f2 n := by
  intro n
  induction n using Nat.strong_induction_on with
  | _ n ih =>
      intro f1 f2 h1 h2
      cases f1 with
      | zero => omega
      | succ g1 =>
          cases f2 with
          | zero => omega
          | succ g2 =>
              by_cases h128 : n < 128
              · simp [vEncAux, h128]
              · simp only [vEncAux, if_neg h128]
                have hdiv : n / 128 < n := Nat.div_lt_self (by omega) (by omega)
                rw [ih (n / 128) hdiv g1 g2 (by omega) (by omega)]

theorem vEncAux_varEnc (n fuel : Nat) (h : n < fuel) :
    vEncAux fuel n = varEnc n :=
  vEncAux_eq n fuel (n + 1) h (Nat.lt_succ_self n)

theorem vDecAux_varEnc : ∀ (n : Nat), ∀ (fuel : Nat) (rest : List Nat),
    (varEnc n).length ≤ fuel →
    vDecAux fuel (varEnc n ++ rest) = some (n, rest) := by
  intro n
  induction n using Nat.strong_induction_on with
  | _ n ih =>
      intro fuel rest hf
      by_cases h128 : n < 128
      · have he : varEnc n = [n] := by
          unfold varEnc vEncAux
          rw [if_pos h128]
        rw [he] at hf ⊢
        cases fuel with
        | zero => simp at hf
        | succ f =>
            simp only [List.cons_append, List.nil_append, vDecAux, if_pos h128]
            rfl
      · have hdiv : n / 128 < n := Nat.div_lt_self (by omega) (by omega)
        have he : varEnc n = (128 + n % 128) :: varEnc (n / 128) := by
          rw [show varEnc n =
              (if n < 128 then [n] else (128 + n % 128) :: vEncAux n (n / 128)) from rfl]
          rw [if_neg h128]
          rw [vEncAux_varEnc (n / 128) n (by omega)]
        rw [he] at hf ⊢
        cases fuel with
        | zero => simp at hf
        | succ f =>
            simp only [List.cons_append, List.append_eq, vDecAux,
              if_neg (by omega : ¬ 128 + n % 128 < 128)]
            rw [ih (n / 128) hdiv f rest (by simp at hf; omega)]
            show some (128 + n % 128 - 128 + 128 * (n / 128), rest) = some (n, rest)
            have hn : 128 + n % 128 - 128 + 128 * (n / 128) = n := by omega
            rw [hn]

theorem varDec_print (n : Nat) (rest : List Nat) :
    varDec (varEnc n ++ rest) = some (n, rest) := by
  unfold varDec
  apply vDecAux_varEnc
  simp only [List.length_append]
  omega

theorem decN_inv {α : Type} (item : List Nat → Option (α × List Nat))
    (enc : α → List Nat) :
    ∀ (l : List α) (rest : List Nat),
    (∀ a ∈ l, ∀ r, item (enc a ++ r) = some (a, r)) →
    decN item l.length (l.flatMap enc ++ rest) = some (l, rest) := by
  intro l
  induction l with
  | nil => intro rest _; rfl
  | cons a as ih =>
      intro rest hitem
      simp only [List.flatMap_cons, List.length_cons, List.append_assoc, decN]
      rw [hitem a (by simp) _]
      simp only [Option.bind_eq_bind, Option.some_bind]
      rw [ih rest (fun x hx r => hitem x (by simp [hx]) r)]
      rfl

theorem decChar_enc (c : Char) (rest : List Nat) :
    decChar (varEnc c.toNat ++ rest) = some (c, rest) := by
  unfold decChar
  rw [varDec_print]
  simp [Char.ofNat_toNat]

theorem decStr_print (s : String) (rest : List Nat) :
    decStr (binStr s ++ rest) = some (s, rest) := by
  unfold decStr binStr
  rw [List.append_assoc, varDec_print]
  simp only [Option.bind_eq_bind, Option.some_bind]
  rw [decN_inv decChar (fun c => varEnc c.toNat) s.toList rest
      (fun a _ r => decChar_enc a r)]
  simp [stringMk_toList]

theorem decList_print {α : Type} (item : List Nat → Option (α × List Nat))
    (enc : α → List Nat) (l : List α) (rest : List Nat)
    (hitem : ∀ a ∈ l, ∀ r, item (enc a ++ r) = some (a, r)) :
    decList item (binList enc l ++ rest) = some (l, rest) := by
  unfold decList binList
  rw [List.append_assoc, varDec_print]
  simp only [Option.bind_eq_bind, Option.some_bind]
  exact decN_inv item enc l rest hitem

theorem decOptStr_print (o : Option String) (rest : List Nat) :
    decOptStr (binOptStr o ++ rest) = some (o, rest) := by
  cases o with
  | none => rfl
  | some s =>
      simp only [binOptStr, List.cons_append, decOptStr]
      rw [decStr_print]
      rfl

theorem decDataDesc_print (o : Option DataDesc) (rest : List Nat) :
    decDataDesc (binDataDesc o ++ rest) = some (o, rest) := by
  cases o with
  | none => rfl
  | some dd =>
      cases dd with
      | string => rfl
      | enum vs =>
          simp only [binDataDesc, List.cons_append, decDataDesc]
          rw [decList_print decStr binStr vs rest (fun a _ r => decStr_print a r)]
          rfl

theorem decLayerType_print (lt : LayerType) (rest : List Nat) :
    decLayerType (lt.tag :: rest) = some (lt, rest) := by
  cases lt <;> rfl

theorem decLayerDesc_print (desc : LayerDesc) (rest : List Nat) :
    decLayerDesc (binLayerDesc desc ++ rest) = some (desc, rest) := by
  obtain ⟨lt, ob, od⟩ := desc
  unfold decLayerDesc binLayerDesc
  simp only [List.cons_append, List.append_assoc]
  rw [decLayerType_print]
  simp only [Option.bind_eq_bind, Option.some_bind]
  rw [decOptStr_print]
  simp only [Option.some_bind]
  rw [decDataDesc_print]
  rfl

theorem decPair_print (r : Nat × Nat) (rest : List Nat) :
    decPair ((varEnc r.1 ++ varEnc r.2) ++ rest) = some (r, rest) := by
  unfold decPair
  rw [List.append_assoc, varDec_print]
  simp only [Option.bind_eq_bind, Option.some_bind]
  rw [varDec_print]
  rfl

theorem decElem_print (p : Nat × String) (rest : List Nat) :
    decElem ((varEnc p.1 ++ binStr p.2) ++ rest) = some (p, rest) := by
  unfold decElem
  rw [List.append_assoc, varDec_print]
  simp only [Option.bind_eq_bind, Option.some_bind]
  rw [decStr_print]
  rfl

theorem decLayerData_print (v : LayerData) (rest : List Nat) :
    decLayerData (binLayerData v ++ rest) = some (v, rest) := by
  cases v with
  | characters t =>
      simp only [binLayerData, List.cons_append, decLayerData]
      rw [decStr_print]
      rfl
  | span ss =>
      simp only [binLayerData, List.cons_append, decLayerData]
      rw [decList_print decPair (fun r => varEnc r.1 ++ varEnc r.2) ss rest
          (fun a _ r => decPair_print a r)]
      rfl
  | seq vs =>
      simp only [binLayerData, List.cons_append, decLayerData]
      rw [decList_print decStr binStr vs rest (fun a _ r => decStr_print a r)]
      rfl
  | element es =>
      simp only [binLayerData, List.cons_append, decLayerData]
      rw [decList_print decElem (fun p => varEnc p.1 ++ binStr p.2) es rest
          (fun a _ r => decElem_print a r)]
      rfl

theorem decNamed_print {α : Type} (item : List Nat → Option (α × List Nat))
    (enc : α → List Nat) (p : String × α) (rest : List Nat)
    (hitem : ∀ r, item (enc p.2 ++ r) = some (p.2, r)) :
    decNamed item (binNamed enc p ++ rest) = some (p, rest) := by
  unfold decNamed binNamed
  rw [List.append_assoc, decStr_print]
  simp only [Option.bind_eq_bind, Option.some_bind]
  rw [hitem rest]
  rfl

theorem read_cuac_roundtrip (c : Corpus) : read_cuac c.to_cuac = some c := by
  unfold read_cuac Corpus.to_cuac
  rw [decList_print (decNamed decLayerDesc) (binNamed binLayerDesc) c.meta _
      (fun a _ r => decNamed_print decLayerDesc binLayerDesc a r
        (fun r2 => decLayerDesc_print a.2 r2))]
  simp only [Option.bind_eq_bind, Option.some_bind]
  rw [show binList (binNamed (binList (binNamed binLayerData))) c.docs =
      binList (binNamed (binList (binNamed binLayerData))) c.docs ++ [] by simp]
  rw [decList_print (decNamed (decList (decNamed decLayerData)))
      (binNamed (binList (binNamed binLayerData))) c.docs []
      (fun a _ r => decNamed_print (decList (decNamed decLayerData))
        (binList (binNamed binLayerData)) a r
        (fun r2 => decList_print (decNamed decLayerData) (binNamed binLayerData)
          a.2 r2
          (fun b _ r3 => decNamed_print decLayerData binLayerData b r3
            (fun r4 => decLayerData_print b.2 r4))))]
  rfl

theorem expectChar_self (c : Char) (l : List Char) :
    expectChar c (c :: l) = some l := by
  simp [expectChar]

theorem plainName_plainValue (s : String) (h : plainName s = true) :
    plainValue s = true := by
  obtain ⟨_, hall⟩ := plainName_parts s h
  unfold plainValue
  rw [List.all_eq_true]
  intro c hc
  have h2 := hall c hc
  simp [h2.2.1, h2.2.2]

theorem tname_plainValue (lt : LayerType) : plainValue lt.tname = true := by
  cases lt <;> decide

theorem parseKeyColon_print (key : String) (rest : List Char)
    (hkey : plainValue key = true) :
    parseKeyColon key (quoteStr key ++ ':' :: rest) = some rest := by
  unfold parseKeyColon
  rw [parseQuoted_print key (':' :: rest) hkey]
  simp [expectChar]

theorem parseKeyColon_wrongkey (key key2 : String) (rest : List Char)
    (hkey2 : plainValue key2 = true) (hne : key2 ≠ key) :
    parseKeyColon key (quoteStr key2 ++ ':' :: rest) = none := by
  unfold parseKeyColon
  rw [parseQuoted_print key2 (':' :: rest) hkey2]
  simp [hne]

theorem parseJsonDataDesc_string (rest : List Char) :
    parseJsonDataDesc (quoteStr "string" ++ rest) = some (.string, rest) := by
  unfold parseJsonDataDesc
  rw [parseQuoted_print "string" rest (by decide)]
  simp

theorem parseJsonDataDesc_enum (vs : List String) (rest : List Char)
    (h : vs.all plainValue = true) :
    parseJsonDataDesc (printStrList vs ++ rest) = some (.enum vs, rest) := by
  rw [show printStrList vs ++ rest =
      ('[' :: joinComma (vs.map quoteStr) ++ [']']) ++ rest from by
      simp [printStrList]]
  unfold parseJsonDataDesc
  have hq : parseQuoted (('[' :: joinComma (vs.map quoteStr) ++ [']']) ++ rest) =
      none := by
    rw [show ('[' :: joinComma (vs.map quoteStr) ++ [']']) ++ rest =
        '[' :: (joinComma (vs.map quoteStr) ++ [']'] ++ rest) from by simp]
    unfold parseQuoted
    simp
  simp only [hq]
  rw [parseFlowList_print parseQuoted quoteStr vs rest
      (fun a ha r => parseQuoted_print a r ((List.all_eq_true.mp h) a ha))
      (fun a _ => by simp [quoteStr])
      (fun a _ c hc => by simp [quoteStr] at hc; subst hc; decide)]
  rfl

theorem parseJsonLayerDesc_print (desc : LayerDesc) (rest : List Char)
    (hwf : wfDesc desc = true) :
    parseJsonLayerDesc (jsonLayerDesc desc ++ rest) = some (desc, rest) := by
  obtain ⟨lt, ob, od⟩ := desc
  unfold wfDesc at hwf
  simp only [Bool.and_eq_true] at hwf
  have htype : ∀ r, parseKeyColon "type" (quoteStr "type" ++ ':' :: r) = some r :=
    fun r => parseKeyColon_print "type" r (by decide)
  have hbasek : ∀ r, parseKeyColon "base" (quoteStr "base" ++ ':' :: r) = some r :=
    fun r => parseKeyColon_print "base" r (by decide)
  have hdatak : ∀ r, parseKeyColon "data" (quoteStr "data" ++ ':' :: r) = some r :=
    fun r => parseKeyColon_print "data" r (by decide)
  have hbwrong : ∀ r, parseKeyColon "base" (quoteStr "data" ++ ':' :: r) = none :=
    fun r => parseKeyColon_wrongkey "base" "data" r (by decide) (by decide)
  have htn : ∀ r, parseQuoted (quoteStr lt.tname ++ r) = some (lt.tname, r) :=
    fun r => parseQuoted_print lt.tname r (tname_plainValue lt)
  have hcrb : ((',' : Char) = rbrace) = False := by decide
  have hqrb : (('"' : Char) = rbrace) = False := by decide
  cases ob with
  | none =>
      cases od with
      | none =>
          rw [show jsonLayerDesc ⟨lt, none, none⟩ ++ rest =
              lbrace :: (quoteStr "type" ++ ':' ::
                (quoteStr lt.tname ++ (rbrace :: rest))) from by
              simp [jsonLayerDesc, joinComma]]
          unfold parseJsonLayerDesc
          simp only [expectChar_self, Option.bind_eq_bind, Option.some_bind,
            htype, htn, parseLayerType_tname, eq_self_iff_true, if_true]
      | some dd =>
          cases dd with
          | string =>
              rw [show jsonLayerDesc ⟨lt, none, some .string⟩ ++ rest =
                  lbrace :: (quoteStr "type" ++ ':' ::
                    (quoteStr lt.tname ++ (',' ::
                      (quoteStr "data" ++ ':' ::
                        (quoteStr "string" ++ (rbrace :: rest)))))) from by
                  simp [jsonLayerDesc, joinComma]]
              unfold parseJsonLayerDesc
              simp only [expectChar_self, Option.bind_eq_bind, Option.some_bind,
                htype, htn, parseLayerType_tname, hcrb, if_false,
                eq_self_iff_true, if_true, hbwrong, hdatak,
                parseJsonDataDesc_string]
              rfl
          | enum vs =>
              have hvs : vs.all plainValue = true := hwf.2
              rw [show jsonLayerDesc ⟨lt, none, some (.enum vs)⟩ ++ rest =
                  lbrace :: (quoteStr "type" ++ ':' ::
                    (quoteStr lt.tname ++ (',' ::
                      (quoteStr "data" ++ ':' ::
                        (printStrList vs ++ (rbrace :: rest)))))) from by
                  simp [jsonLayerDesc, joinComma]]
              unfold parseJsonLayerDesc
              simp only [expectChar_self, Option.bind_eq_bind, Option.some_bind,
                htype, htn, parseLayerType_tname, hcrb, if_false,
                eq_self_iff_true, if_true, hbwrong, hdatak,
                parseJsonDataDesc_enum vs (rbrace :: rest) hvs]
              rfl
  | some b =>
      have hb : plainName b = true := hwf.1
      have hbq : ∀ r, parseQuoted (quoteStr b ++ r) = some (b, r) :=
        fun r => parseQuoted_print b r (plainName_plainValue b hb)
      cases od with
      | none =>
          rw [show jsonLayerDesc ⟨lt, some b, none⟩ ++ rest =
              lbrace :: (quoteStr "type" ++ ':' ::
                (quoteStr lt.tname ++ (',' ::
                  (quoteStr "base" ++ ':' ::
                    (quoteStr b ++ (rbrace :: rest)))))) from by
              simp [jsonLayerDesc, joinComma]]
          unfold parseJsonLayerDesc
          simp only [expectChar_self, Option.bind_eq_bind, Option.some_bind,
            htype, htn, parseLayerType_tname, hcrb, if_false,
            eq_self_iff_true, if_true, hbasek, hbq]
      | some dd =>
          cases dd with
          | string =>
              rw [show jsonLayerDesc ⟨lt, some b, some .string⟩ ++ rest =
                  lbrace :: (quoteStr "type" ++ ':' ::
                    (quoteStr lt.tname ++ (',' ::
                      (quoteStr "base" ++ ':' ::
                        (quoteStr b ++ (',' ::
                          (quoteStr "data" ++ ':' ::
                            (quoteStr "string" ++ (rbrace :: rest))))))))) from by
                  simp [jsonLayerDesc, joinComma]]
              unfold parseJsonLayerDesc
              simp only [expectChar_self, Option.bind_eq_bind, Option.some_bind,
                htype, htn, parseLayerType_tname, hcrb, if_false,
                eq_self_iff_true, if_true, hbasek, hbq, hdatak,
                parseJsonDataDesc_string]
              rfl
          | enum vs =>
              have hvs : vs.all plainValue = true := hwf.2
              rw [show jsonLayerDesc ⟨lt, some b, some (.enum vs)⟩ ++ rest =
                  lbrace :: (quoteStr "type" ++ ':' ::
                    (quoteStr lt.tname ++ (',' ::
                      (quoteStr "base" ++ ':' ::
                        (quoteStr b ++ (',' ::
                          (quoteStr "data" ++ ':' ::
                            (printStrList vs ++ (rbrace :: rest))))))))) from by
                  simp [jsonLayerDesc, joinComma]]
              unfold parseJsonLayerDesc
              simp only [expectChar_self, Option.bind_eq_bind, Option.some_bind,
                htype, htn, parseLayerType_tname, hcrb, if_false,
                eq_self_iff_true, if_true, hbasek, hbq, hdatak,
                parseJsonDataDesc_enum vs (rbrace :: rest) hvs]
              rfl

theorem wfDoc_entries (meta : List (String × LayerDesc)) (d : Document)
    (h : wfDoc meta d = true) :
    ∀ q ∈ d, plainName q.1 = true ∧ wfLayerData q.2 = true ∧
      ∃ desc, alookup q.1 meta = some desc ∧ desc.layer_type = q.2.typeOf := by
  intro q hq
  have hq3 := (List.all_eq_true.mp h) q hq
  simp only [Bool.and_eq_true] at hq3
  refine ⟨hq3.1.1, hq3.1.2, ?_⟩
  have hq4 := hq3.2
  revert hq4
  cases hlk : alookup q.1 meta with
  | none => intro hq4; simp at hq4
  | some desc => intro hq4; exact ⟨desc, rfl, by simpa using hq4⟩

theorem parseJsonMember_print (meta : List (String × LayerDesc))
    (q : String × LayerData) (desc : LayerDesc) (r : List Char)
    (hnm : plainName q.1 = true) (hwf : wfLayerData q.2 = true)
    (hlk : alookup q.1 meta = some desc) (hty : desc.layer_type = q.2.typeOf) :
    parseJsonMember meta ((quoteStr q.1 ++ ':' :: jsonValue q.2) ++ r) =
      some (q, r) := by
  unfold parseJsonMember
  rw [show (quoteStr q.1 ++ ':' :: jsonValue q.2) ++ r =
      quoteStr q.1 ++ (':' :: (jsonValue q.2 ++ r)) from by simp]
  rw [parseQuoted_print q.1 _ (plainName_plainValue q.1 hnm)]
  simp only [Option.bind_eq_bind, Option.some_bind, expectChar_self, hlk, hty,
    parseJsonValue_print q.2 r hwf, Option.map_some']

theorem joinComma_cons_ex (x : List Char) (xs : List (List Char)) :
    ∃ u, joinComma (x :: xs) = x ++ u := by
  cases xs with
  | nil => exact ⟨[], by simp [joinComma]⟩
  | cons y ys => exact ⟨',' :: joinComma (y :: ys), by simp [joinComma]⟩

theorem parseJsonDoc_print (meta : List (String × LayerDesc)) (d : Document)
    (rest : List Char)
    (hwfd : ∀ q ∈ d, plainName q.1 = true ∧ wfLayerData q.2 = true ∧
      ∃ desc, alookup q.1 meta = some desc ∧ desc.layer_type = q.2.typeOf) :
    parseJsonDoc meta (jsonDoc d ++ rest) = some (sortByName d, rest) := by
  cases hsd : sortByName d with
  | nil =>
      rw [show jsonDoc d ++ rest = lbrace :: (rbrace :: rest) from by
          simp [jsonDoc, hsd, joinComma]]
      unfold parseJsonDoc
      simp only [expectChar_self, Option.bind_eq_bind, Option.some_bind,
        eq_self_iff_true, if_true]
  | cons m ms =>
      have hitem : ∀ a ∈ (m :: ms), ∀ r,
          parseJsonMember meta
            ((fun p => quoteStr p.1 ++ ':' :: jsonValue p.2) a ++ r) =
            some (a, r) := by
        intro a ha r
        have ha1 : a ∈ sortByName d := by rw [hsd]; exact ha
        have ha2 : a ∈ d := (sortByName_perm d).mem_iff.mp ha1
        obtain ⟨h1, h2, desc, hlk, hty⟩ := hwfd a ha2
        exact parseJsonMember_print meta a desc r h1 h2 hlk hty
      rw [show jsonDoc d ++ rest =
          lbrace :: (joinComma ((m :: ms).map
            (fun p => quoteStr p.1 ++ ':' :: jsonValue p.2)) ++ rbrace :: rest)
          from by simp [jsonDoc, hsd]]
      unfold parseJsonDoc
      simp only [expectChar_self, Option.bind_eq_bind, Option.some_bind]
      obtain ⟨t, ht⟩ : ∃ t, joinComma ((m :: ms).map
          (fun p => quoteStr p.1 ++ ':' :: jsonValue p.2)) ++ rbrace :: rest =
          '"' :: t := by
        obtain ⟨u, hu⟩ := joinComma_cons_ex
          (quoteStr m.1 ++ ':' :: jsonValue m.2)
          (ms.map (fun p => quoteStr p.1 ++ ':' :: jsonValue p.2))
        exact ⟨(m.1.toList ++ ['"']) ++ (':' :: jsonValue m.2 ++
          (u ++ rbrace :: rest)), by simp only [List.map_cons]; rw [hu]; simp [quoteStr]⟩
      rw [ht]
      simp only [show (('"' : Char) = rbrace) = False from by decide, if_false]
      rw [← ht]
      have hlen : (m :: ms).length ≤ (joinComma ((m :: ms).map
          (fun p => quoteStr p.1 ++ ':' :: jsonValue p.2)) ++
          rbrace :: rest).length + 1 := by
        have h1 := joinComma_length_ge
          (fun p => quoteStr p.1 ++ ':' :: jsonValue p.2) (m :: ms)
          (fun a _ => by simp [quoteStr])
        simp only [List.length_append] at *
        omega
      rw [parseSepBy_inv (parseJsonMember meta)
          (fun p => quoteStr p.1 ++ ':' :: jsonValue p.2) (m :: ms) _
          (rbrace :: rest) hlen (by simp) hitem
          (fun c hc => by simp at hc; subst hc; decide)]
      simp only [Option.pure_def, Option.some_bind, expectChar_self]

theorem parseJsonMetaMember_print (p : String × LayerDesc) (r : List Char)
    (hn : plainName p.1 = true) (hd : wfDesc p.2 = true) :
    parseJsonMetaMember ((quoteStr p.1 ++ ':' :: jsonLayerDesc p.2) ++ r) =
      some (p, r) := by
  unfold parseJsonMetaMember
  rw [show (quoteStr p.1 ++ ':' :: jsonLayerDesc p.2) ++ r =
      quoteStr p.1 ++ (':' :: (jsonLayerDesc p.2 ++ r)) from by simp]
  rw [parseQuoted_print p.1 _ (plainName_plainValue p.1 hn)]
  simp only [Option.bind_eq_bind, Option.some_bind, expectChar_self]
  rw [parseJsonLayerDesc_print p.2 r hd]
  rfl

theorem parseJsonDocMember_print (meta : List (String × LayerDesc))
    (p : String × Document) (r : List Char)
    (hn : plainName p.1 = true)
    (hwfd : ∀ q ∈ p.2, plainName q.1 = true ∧ wfLayerData q.2 = true ∧
      ∃ desc, alookup q.1 meta = some desc ∧ desc.layer_type = q.2.typeOf) :
    parseJsonDocMember meta ((quoteStr p.1 ++ ':' :: jsonDoc p.2) ++ r) =
      some ((p.1, sortByName p.2), r) := by
  unfold parseJsonDocMember
  rw [show (quoteStr p.1 ++ ':' :: jsonDoc p.2) ++ r =
      quoteStr p.1 ++ (':' :: (jsonDoc p.2 ++ r)) from by simp]
  rw [parseQuoted_print p.1 _ (plainName_plainValue p.1 hn)]
  simp only [Option.bind_eq_bind, Option.some_bind, expectChar_self]
  rw [parseJsonDoc_print meta p.2 r hwfd]
  rfl

theorem parseSepBy_inv_map {α β : Type} (item : List Char → Option (β × List Char))
    (pr : α → List Char) (g : α → β) :
    ∀ (items : List α) (fuel : Nat) (rest : List Char),
    items.length ≤ fuel → items ≠ [] →
    (∀ a ∈ items, ∀ r, item (pr a ++ r) = some (g a, r)) →
    (∀ c, rest.head? = some c → c ≠ ',') →
    parseSepBy item fuel (joinComma (items.map pr) ++ rest) =
      some (items.map g, rest) := by
  intro items
  induction items with
  | nil => intro fuel rest _ hne _ _; exact absurd rfl hne
  | cons a as ih =>
      intro fuel rest hf _ hitem hrest
      cases fuel with
      | zero => simp at hf
      | succ f =>
          cases as with
          | nil =>
              simp only [List.map_cons, List.map_nil, joinComma]
              simp only [parseSepBy]
              rw [hitem a (by simp) rest]
              cases rest with
              | nil => rfl
              | cons c cs =>
                  have hc := hrest c rfl
                  simp [hc]
          | cons b bs =>
              simp only [List.map_cons, joinComma]
              simp only [parseSepBy]
              rw [show (pr a ++ ',' :: joinComma (pr b :: List.map pr bs)) ++ rest =
                    pr a ++ (',' :: (joinComma (List.map pr (b :: bs)) ++ rest)) by
                  simp]
              rw [hitem a (by simp) _]
              simp only [if_pos rfl]
              rw [ih f rest (by simp at hf ⊢; omega) (by simp)
                  (fun x hx r => hitem x (by simp [hx]) r) hrest]
              simp

theorem read_json_roundtrip (c : Corpus) (h : wfCorpus c = true) :
    read_json_str c.to_json_str = some (sortCorpus c) := by
  unfold wfCorpus at h
  simp only [Bool.and_eq_true] at h
  obtain ⟨⟨hnd, hmeta⟩, hdocs⟩ := h
  have hmeta' : ∀ p ∈ c.meta, plainName p.1 = true ∧ wfDesc p.2 = true := by
    intro p hp
    have := (List.all_eq_true.mp hmeta) p hp
    simpa using this
  have hdocs' : ∀ p ∈ c.docs, plainName p.1 = true ∧ wfDoc c.meta p.2 = true := by
    intro p hp
    have := (List.all_eq_true.mp hdocs) p hp
    simpa using this
  have hsm : ∀ p ∈ sortByName c.meta, plainName p.1 = true ∧ wfDesc p.2 = true :=
    fun p hp => hmeta' p ((sortByName_perm c.meta).mem_iff.mp hp)
  have hmitem : ∀ a ∈ sortByName c.meta, ∀ r,
      parseJsonMetaMember
        ((fun p => quoteStr p.1 ++ ':' :: jsonLayerDesc p.2) a ++ r) =
        some (a, r) :=
    fun a ha r => parseJsonMetaMember_print a r (hsm a ha).1 (hsm a ha).2
  have hditem : ∀ a ∈ c.docs, ∀ r,
      parseJsonDocMember (sortByName c.meta)
        ((fun p => quoteStr p.1 ++ ':' :: jsonDoc p.2) a ++ r) =
        some ((fun p => (p.1, sortByName p.2)) a, r) := by
    intro a ha r
    exact parseJsonDocMember_print (sortByName c.meta) a r (hdocs' a ha).1
      (fun q hq => by
        have h2 := wfDoc_entries c.meta a.2
          (hdocs' a ha).2 q hq
        obtain ⟨h3, h4, desc, hlk, hty⟩ := h2
        exact ⟨h3, h4, desc, by
          rw [alookup_sortByName q.1 c.meta (listNodup_nodup _ hnd)]
          exact hlk, hty⟩)
  have hkm : ∀ r, parseKeyColon "_meta" (quoteStr "_meta" ++ ':' :: r) = some r :=
    fun r => parseKeyColon_print "_meta" r (by decide)
  have hcrb : ((',' : Char) = rbrace) = False := by decide
  have hqrb : (('"' : Char) = rbrace) = False := by decide
  cases hsm2 : sortByName c.meta with
  | nil =>
      rw [hsm2] at hditem
      cases hdc : c.docs with
      | nil =>
          rw [show c.to_json_str = String.mk (lbrace ::
              (quoteStr "_meta" ++ ':' :: (lbrace :: (rbrace :: [rbrace]))))
              from by
            unfold Corpus.to_json_str
            rw [hsm2, hdc]
            simp [joinComma]]
          rw [show sortCorpus c =
              ⟨([] : List (String × LayerDesc)), ([] : List (String × Document))⟩
              from by
            unfold sortCorpus
            rw [hsm2, hdc]
            rfl]
          rfl
      | cons dm dms =>
          rw [hdc] at hditem
          rw [show c.to_json_str = String.mk (lbrace ::
              (quoteStr "_meta" ++ ':' :: (lbrace :: (rbrace ::
                (',' :: (joinComma ((dm :: dms).map
                  (fun p => quoteStr p.1 ++ ':' :: jsonDoc p.2)) ++ [rbrace]))))))
              from by
            unfold Corpus.to_json_str
            rw [hsm2, hdc]
            simp [joinComma]]
          rw [show sortCorpus c =
              ⟨([] : List (String × LayerDesc)),
               (dm :: dms).map (fun p => (p.1, sortByName p.2))⟩ from by
            unfold sortCorpus
            rw [hsm2, hdc]]
          unfold read_json_str
          rw [show (String.mk (lbrace ::
              (quoteStr "_meta" ++ ':' :: (lbrace :: (rbrace ::
                (',' :: (joinComma ((dm :: dms).map
                  (fun p => quoteStr p.1 ++ ':' :: jsonDoc p.2)) ++ [rbrace]))))))).toList =
              lbrace :: (quoteStr "_meta" ++ ':' :: (lbrace :: (rbrace ::
                (',' :: (joinComma ((dm :: dms).map
                  (fun p => quoteStr p.1 ++ ':' :: jsonDoc p.2)) ++ [rbrace])))))
              from rfl]
          simp only [expectChar_self, Option.bind_eq_bind, Option.some_bind, hkm,
            eq_self_iff_true, if_true, hcrb, if_false]
          have hlen2 : (dm :: dms).length ≤ (joinComma ((dm :: dms).map
              (fun p => quoteStr p.1 ++ ':' :: jsonDoc p.2)) ++ [rbrace]).length + 1 := by
            have h1 := joinComma_length_ge
              (fun p => quoteStr p.1 ++ ':' :: jsonDoc p.2) (dm :: dms)
              (fun a _ => by simp [quoteStr])
            simp only [List.length_append, List.length_cons] at h1 ⊢
            omega
          rw [parseSepBy_inv_map (parseJsonDocMember [])
              (fun p => quoteStr p.1 ++ ':' :: jsonDoc p.2)
              (fun p => (p.1, sortByName p.2)) (dm :: dms) _ [rbrace]
              hlen2 (by simp) hditem
              (fun ch hch => by simp at hch; subst hch; decide)]
          simp only [Option.pure_def, Option.some_bind, eq_self_iff_true, if_true]
          rfl
  | cons mm mms =>
      rw [hsm2] at hmitem hditem
      cases hdc : c.docs with
      | nil =>
          rw [show c.to_json_str = String.mk (lbrace ::
              (quoteStr "_meta" ++ ':' :: (lbrace ::
                (joinComma ((mm :: mms).map
                  (fun p => quoteStr p.1 ++ ':' :: jsonLayerDesc p.2)) ++ rbrace ::
                  [rbrace])))) from by
            unfold Corpus.to_json_str
            rw [hsm2, hdc]
            simp [joinComma]]
          rw [show sortCorpus c =
              ⟨mm :: mms, ([] : List (String × Document))⟩ from by
            unfold sortCorpus
            rw [hsm2, hdc]
            rfl]
          unfold read_json_str
          rw [show (String.mk (lbrace ::
              (quoteStr "_meta" ++ ':' :: (lbrace ::
                (joinComma ((mm :: mms).map
                  (fun p => quoteStr p.1 ++ ':' :: jsonLayerDesc p.2)) ++ rbrace ::
                  [rbrace]))))).toList =
              lbrace :: (quoteStr "_meta" ++ ':' :: (lbrace ::
                (joinComma ((mm :: mms).map
                  (fun p => quoteStr p.1 ++ ':' :: jsonLayerDesc p.2)) ++ rbrace ::
                  [rbrace]))) from rfl]
          simp only [expectChar_self, Option.bind_eq_bind, Option.some_bind, hkm]
          obtain ⟨t, ht⟩ : ∃ t, joinComma ((mm :: mms).map
              (fun p => quoteStr p.1 ++ ':' :: jsonLayerDesc p.2)) ++ rbrace ::
              [rbrace] = '"' :: t := by
            obtain ⟨u, hu⟩ := joinComma_cons_ex
              (quoteStr mm.1 ++ ':' :: jsonLayerDesc mm.2)
              (mms.map (fun p => quoteStr p.1 ++ ':' :: jsonLayerDesc p.2))
            exact ⟨(mm.1.toList ++ ['"']) ++ (':' :: jsonLayerDesc mm.2 ++
              (u ++ rbrace :: [rbrace])),
              by simp only [List.map_cons]; rw [hu]; simp [quoteStr]⟩
          rw [ht]
          simp only [hqrb, if_false]
          rw [← ht]
          have hlen1 : (mm :: mms).length ≤ (joinComma ((mm :: mms).map
              (fun p => quoteStr p.1 ++ ':' :: jsonLayerDesc p.2)) ++ rbrace ::
              [rbrace]).length + 1 := by
            have h1 := joinComma_length_ge
              (fun p => quoteStr p.1 ++ ':' :: jsonLayerDesc p.2) (mm :: mms)
              (fun a _ => by simp [quoteStr])
            simp only [List.length_append, List.length_cons] at h1 ⊢
            omega
          rw [parseSepBy_inv parseJsonMetaMember
              (fun p => quoteStr p.1 ++ ':' :: jsonLayerDesc p.2) (mm :: mms) _
              (rbrace :: [rbrace]) hlen1 (by simp) hmitem
              (fun ch hch => by simp at hch; subst hch; decide)]
          simp only [Option.pure_def, Option.some_bind, expectChar_self, eq_self_iff_true, if_true]
          rfl
      | cons dm dms =>
          rw [hdc] at hditem
          rw [show c.to_json_str = String.mk (lbrace ::
              (quoteStr "_meta" ++ ':' :: (lbrace ::
                (joinComma ((mm :: mms).map
                  (fun p => quoteStr p.1 ++ ':' :: jsonLayerDesc p.2)) ++ rbrace ::
                  (',' :: (joinComma ((dm :: dms).map
                    (fun p => quoteStr p.1 ++ ':' :: jsonDoc p.2)) ++ [rbrace]))))))
              from by
            unfold Corpus.to_json_str
            rw [hsm2, hdc]
            simp [joinComma]]
          rw [show sortCorpus c =
              ⟨mm :: mms, (dm :: dms).map (fun p => (p.1, sortByName p.2))⟩ from by
            unfold sortCorpus
            rw [hsm2, hdc]]
          unfold read_json_str
          rw [show (String.mk (lbrace ::
              (quoteStr "_meta" ++ ':' :: (lbrace ::
                (joinComma ((mm :: mms).map
                  (fun p => quoteStr p.1 ++ ':' :: jsonLayerDesc p.2)) ++ rbrace ::
                  (',' :: (joinComma ((dm :: dms).map
                    (fun p => quoteStr p.1 ++ ':' :: jsonDoc p.2)) ++ [rbrace]))))))).toList =
              lbrace :: (quoteStr "_meta" ++ ':' :: (lbrace ::
                (joinComma ((mm :: mms).map
                  (fun p => quoteStr p.1 ++ ':' :: jsonLayerDesc p.2)) ++ rbrace ::
                  (',' :: (joinComma ((dm :: dms).map
                    (fun p => quoteStr p.1 ++ ':' :: jsonDoc p.2)) ++ [rbrace])))))
              from rfl]
          simp only [expectChar_self, Option.bind_eq_bind, Option.some_bind, hkm]
          obtain ⟨t, ht⟩ : ∃ t, joinComma ((mm :: mms).map
              (fun p => quoteStr p.1 ++ ':' :: jsonLayerDesc p.2)) ++ rbrace ::
              (',' :: (joinComma ((dm :: dms).map
                (fun p => quoteStr p.1 ++ ':' :: jsonDoc p.2)) ++ [rbrace])) =
              '"' :: t := by
            obtain ⟨u, hu⟩ := joinComma_cons_ex
              (quoteStr mm.1 ++ ':' :: jsonLayerDesc mm.2)
              (mms.map (fun p => quoteStr p.1 ++ ':' :: jsonLayerDesc p.2))
            exact ⟨(mm.1.toList ++ ['"']) ++ (':' :: jsonLayerDesc mm.2 ++
              (u ++ rbrace :: (',' :: (joinComma ((dm :: dms).map
                (fun p => quoteStr p.1 ++ ':' :: jsonDoc p.2)) ++ [rbrace])))),
              by simp only [List.map_cons]; rw [hu]; simp [quoteStr]⟩
          rw [ht]
          simp only [hqrb, if_false]
          rw [← ht]
          have hlen1 : (mm :: mms).length ≤ (joinComma ((mm :: mms).map
              (fun p => quoteStr p.1 ++ ':' :: jsonLayerDesc p.2)) ++ rbrace ::
              (',' :: (joinComma ((dm :: dms).map
                (fun p => quoteStr p.1 ++ ':' :: jsonDoc p.2)) ++ [rbrace]))).length + 1 := by
            have h1 := joinComma_length_ge
              (fun p => quoteStr p.1 ++ ':' :: jsonLayerDesc p.2) (mm :: mms)
              (fun a _ => by simp [quoteStr])
            simp only [List.length_append, List.length_cons] at h1 ⊢
            omega
          rw [parseSepBy_inv parseJsonMetaMember
              (fun p => quoteStr p.1 ++ ':' :: jsonLayerDesc p.2) (mm :: mms) _
              (rbrace :: (',' :: (joinComma ((dm :: dms).map
                (fun p => quoteStr p.1 ++ ':' :: jsonDoc p.2)) ++ [rbrace])))
              hlen1 (by simp) hmitem
              (fun ch hch => by simp at hch; subst hch; decide)]
          simp only [Option.pure_def, Option.some_bind, expectChar_self, hcrb, if_false,
            eq_self_iff_true, if_true]
          have hlen2 : (dm :: dms).length ≤ (joinComma ((dm :: dms).map
              (fun p => quoteStr p.1 ++ ':' :: jsonDoc p.2)) ++ [rbrace]).length + 1 := by
            have h1 := joinComma_length_ge
              (fun p => quoteStr p.1 ++ ':' :: jsonDoc p.2) (dm :: dms)
              (fun a _ => by simp [quoteStr])
            simp only [List.length_append, List.length_cons] at h1 ⊢
            omega
          rw [parseSepBy_inv_map (parseJsonDocMember (mm :: mms))
              (fun p => quoteStr p.1 ++ ':' :: jsonDoc p.2)
              (fun p => (p.1, sortByName p.2)) (dm :: dms) _ [rbrace]
              hlen2 (by simp) hditem
              (fun ch hch => by simp at hch; subst hch; decide)]
          simp only [Option.pure_def, Option.some_bind, eq_self_iff_true, if_true]
          rfl

theorem sortedNames_chain {α : Type} : ∀ (l : List (String × α)),
    sortedNames (l.map Prod.fst) = true → l.Chain' nameLe := by
  intro l
  induction l with
  | nil => intro _; exact List.chain'_nil
  | cons p l2 ih =>
      cases l2 with
      | nil => intro _; exact List.chain'_singleton p
      | cons q l3 =>
          intro h
          simp only [List.map_cons, sortedNames, Bool.and_eq_true] at h
          exact List.chain'_cons.mpr ⟨h.1, ih (by
            simp only [List.map_cons]
            exact h.2)⟩

theorem sortByName_sorted_eq {α : Type} (l : List (String × α))
    (h : sortedNames (l.map Prod.fst) = true) : sortByName l = l :=
  List.Sorted.insertionSort_eq (List.chain'_iff_pairwise.mp (sortedNames_chain l h))

theorem sortCorpus_sorted (c : Corpus) (h : isSortedCorpus c = true) :
    sortCorpus c = c := by
  unfold isSortedCorpus at h
  simp only [Bool.and_eq_true] at h
  unfold sortCorpus
  have hdocs : ∀ p ∈ c.docs, (p.1, sortByName p.2) = p := by
    intro p hp
    have h2 := (List.all_eq_true.mp h.2) p hp
    rw [sortByName_sorted_eq p.2 (by simpa using h2)]
  have hmap : c.docs.map (fun p => (p.1, sortByName p.2)) = c.docs.map id :=
    List.map_congr_left hdocs
  rw [sortByName_sorted_eq c.meta h.1, hmap, List.map_id]

/-- C3 counterexample: for the basic corpus (declaration order `text`,
`words`, `pos`), the YAML and JSON codecs do not decode back to the
original corpus — the decoded corpus lists layer keys sorted, not in
declaration order — while the binary codec round-trips exactly. -/
theorem roundtrip_layer_order_cex :
    read_yaml_str create_basic_corpus.to_yaml_str ≠ some create_basic_corpus ∧
    read_json_str create_basic_corpus.to_json_str ≠ some create_basic_corpus ∧
    read_cuac create_basic_corpus.to_cuac = some create_basic_corpus := by
  decide

/-- C3 (amended).  For every well-formed corpus, decoding the encoded
corpus succeeds for all three codecs: YAML and JSON decode to the
sorted-key normal form `sortCorpus` (document insertion order and
document contents preserved, layer keys normalised to name order), the
binary codec decodes to the original corpus exactly, `sortCorpus`
preserves the document IDs in order, and on a corpus whose layer keys
are already in sorted order the text codecs also round-trip exactly. -/
theorem codec_roundtrip (c : Corpus) (h : wfCorpus c = true) :
    read_yaml_str c.to_yaml_str = some (sortCorpus c) ∧
    read_json_str c.to_json_str = some (sortCorpus c) ∧
    read_cuac c.to_cuac = some c ∧
    (sortCorpus c).doc_ids = c.doc_ids ∧
    (isSortedCorpus c = true → sortCorpus c = c) :=
  ⟨read_yaml_roundtrip c h, read_json_roundtrip c h, read_cuac_roundtrip c,
   by simp [sortCorpus, Corpus.doc_ids],
   fun hs => sortCorpus_sorted c hs⟩

/-- Witness for C3 at the basic corpus: it is well-formed and all three
codecs decode its encoding as the amended theorem states. -/
theorem codec_roundtrip_witness :
    wfCorpus create_basic_corpus = true ∧
    read_yaml_str create_basic_corpus.to_yaml_str =
      some (sortCorpus create_basic_corpus) ∧
    read_json_str create_basic_corpus.to_json_str =
      some (sortCorpus create_basic_corpus) ∧
    read_cuac create_basic_corpus.to_cuac = some create_basic_corpus :=
  ⟨by decide, (codec_roundtrip create_basic_corpus (by decide)).1,
   (codec_roundtrip create_basic_corpus (by decide)).2.1,
   (codec_roundtrip create_basic_corpus (by decide)).2.2.1⟩

end Teanga
